import Mathlib

/-!
Verification of the gpkit exponent-map algebra and variable-identity subsystem.

The development shallowly embeds `gpkit/varkey.py` (the `VarKey` class) and
`gpkit/nomials/data.py` (the `NomialData` class).  Python strings are modelled
as `List Char`, floats as `ℚ`, dicts as association lists compared by content,
and the process-wide unique-id counter as an explicitly threaded `Nat`.
Collaborators absent from the sources (the `NomialMap`/`HashVector` map layer,
`KeySet` lookup, the unit service `qty`, and `lineagestr` rendering) are
modelled from the specification and marked as such.
-/

set_option maxHeartbeats 1000000

namespace GPKit

/-- The ASCII apostrophe character used by Python `repr` of strings. -/
def qc : Char := Char.ofNat 39

/-- Opening curly brace character. -/
def lb : Char := Char.ofNat 123

/-- Closing curly brace character. -/
def rb : Char := Char.ofNat 125

/-- Rendering of a single decimal digit. -/
def digitCh (d : Nat) : Char :=
  match d with
  | 0 => '0' | 1 => '1' | 2 => '2' | 3 => '3' | 4 => '4'
  | 5 => '5' | 6 => '6' | 7 => '7' | 8 => '8' | _ => '9'

/-- Little-endian decimal digits, with structural fuel so the kernel can
evaluate it. -/
def natDigitsRevAux : Nat → Nat → List Nat
  | 0, _ => []
  | f + 1, n => if n = 0 then [] else (n % 10) :: natDigitsRevAux f (n / 10)

/-- Little-endian decimal digits of `n` (empty for `0`). -/
def natDigitsRev (n : Nat) : List Nat := natDigitsRevAux n n

/-- Decoder for little-endian decimal digit lists. -/
def ofDigitsRev : List Nat → Nat
  | [] => 0
  | d :: l => d + 10 * ofDigitsRev l

/-- Python `str` of a natural number, as a character list. -/
def natChars (n : Nat) : List Char :=
  if n = 0 then ['0'] else ((natDigitsRev n).map digitCh).reverse

/-- Boolean prefix test on character lists. -/
def prefixB : List Char → List Char → Bool
  | [], _ => true
  | _ :: _, [] => false
  | a :: as, b :: bs => a == b && prefixB as bs

/-- Boolean substring test on character lists. -/
def containsSub (pat : List Char) : List Char → Bool
  | [] => prefixB pat []
  | c :: rest => prefixB pat (c :: rest) || containsSub pat rest

/-! ### Generic association-list machinery

Python dicts keyed by objects with custom `__hash__`/`__eq__` are modelled as
association lists looked up through an explicit boolean key equivalence `kb`.
-/

section AList

variable {κ ν : Type}

/-- First-match lookup through the key equivalence `kb`. -/
def alookup (kb : κ → κ → Bool) : List (κ × ν) → κ → Option ν
  | [], _ => none
  | p :: l, k => if kb p.1 k then some p.2 else alookup kb l k

/-- Remove the first entry whose key matches `k` under `kb`. -/
def aremove (kb : κ → κ → Bool) : List (κ × ν) → κ → List (κ × ν)
  | [], _ => []
  | p :: l, k => if kb p.1 k then l else p :: aremove kb l k

/-- No two entries have `kb`-equivalent keys (the Python-dict invariant). -/
def nodupKeys (kb : κ → κ → Bool) (l : List (κ × ν)) : Prop :=
  l.Pairwise (fun p q => kb p.1 q.1 = false)

/-- Python dict equality: same keys (under `kb`) bound to equal values. -/
def dictBeq [DecidableEq ν] (kb : κ → κ → Bool) (a b : List (κ × ν)) : Bool :=
  a.all (fun p => decide (alookup kb b p.1 = some p.2)) &&
  b.all (fun q => decide (alookup kb a q.1 = some q.2))

end AList

/-! ### The VarKey model (`gpkit/varkey.py`) -/

/-- Values that can sit in a VarKey attribute bag or be returned by Python
attribute access; opaque objects (methods, self references, the hmap) are
carried as tagged `pobj` values. -/
inductive PyVal : Type where
  | pstr (s : List Char)
  | pnat (n : Nat)
  | prat (q : ℚ)
  | plineage (l : List (List Char × Nat))
  | pidx (l : List Nat)
  | pstrs (l : List (List Char))
  | pobj (tag : List Char)
  | pnone
deriving DecidableEq

/-- The constructed VarKey object: resolved name, lineage, index, normalized
units and unit representation, the remaining attribute-bag entries, and the
synthesized vector parent key (`VarKey.__init__`, lines 24-55). -/
inductive VarKey : Type where
  | mk (name : List Char) (lineage : Option (List (List Char × Nat)))
      (idx : Option (List Nat)) (units : Option (List Char)) (unitrepr : List Char)
      (extra : List (String × PyVal)) (veckey : Option VarKey)

def VarKey.name : VarKey → List Char
  | .mk n _ _ _ _ _ _ => n

def VarKey.lineage : VarKey → Option (List (List Char × Nat))
  | .mk _ l _ _ _ _ _ => l

def VarKey.idx : VarKey → Option (List Nat)
  | .mk _ _ i _ _ _ _ => i

def VarKey.units : VarKey → Option (List Char)
  | .mk _ _ _ u _ _ _ => u

def VarKey.unitrepr : VarKey → List Char
  | .mk _ _ _ _ ur _ _ => ur

def VarKey.extra : VarKey → List (String × PyVal)
  | .mk _ _ _ _ _ e _ => e

def VarKey.veckey : VarKey → Option VarKey
  | .mk _ _ _ _ _ _ v => v

/-- Python `repr` of one `(modelname, modelnum)` lineage pair. -/
def reprPair (p : List Char × Nat) : List Char :=
  '(' :: qc :: (p.1 ++ qc :: ',' :: ' ' :: (natChars p.2 ++ [')']))

/-- Comma-space joined pair reprs (the body of a multi-element tuple repr). -/
def bodyMulti : List (List Char × Nat) → List Char
  | [] => []
  | [p] => reprPair p
  | p :: ps => reprPair p ++ ',' :: ' ' :: bodyMulti ps

/-- Python `repr` of a tuple of lineage pairs. -/
def reprTup : List (List Char × Nat) → List Char
  | [] => ['(', ')']
  | [p] => '(' :: (reprPair p ++ [',', ')'])
  | l => '(' :: (bodyMulti l ++ [')'])

/-- Python `str` of the `lineage` attribute (`None` when absent). -/
def reprLin : Option (List (List Char × Nat)) → List Char
  | none => ("None").toList
  | some l => reprTup l

/-- Body of a Python repr of a tuple of naturals. -/
def bodyNat : List Nat → List Char
  | [] => []
  | [n] => natChars n
  | n :: ns => natChars n ++ ',' :: ' ' :: bodyNat ns

/-- Python `str` of a tuple of naturals (used for `idx`). -/
def reprNatTup : List Nat → List Char
  | [] => ['(', ')']
  | [n] => '(' :: (natChars n ++ [',', ')'])
  | l => '(' :: (bodyNat l ++ [')'])

/-- Dot-separated join of rendered lineage components. -/
def joinSep : List (List Char) → List Char
  | [] => []
  | [s] => s
  | s :: ss => s ++ '.' :: joinSep ss

/-- Modelled from the spec: `GPkitObject.lineagestr` (repr_conventions is not
under src/). The lineage qualifies a name by the ordered enclosing sub-model
names, joined by a separator, each name carrying its model number when
`modelnums` is requested and the number is nonzero. -/
def lineagestr (l : List (List Char × Nat)) (modelnums : Bool) : List Char :=
  joinSep
    (l.map (fun p => if modelnums && decide (0 < p.2) then p.1 ++ natChars p.2 else p.1))

/-- The lineage subscript of `str_without`: present only when the lineage
attribute is truthy (a nonempty tuple). -/
def linPart (lineage : Option (List (List Char × Nat))) (modelnums : Bool) : List Char :=
  match lineage with
  | some (p :: ps) => '_' :: lineagestr (p :: ps) modelnums
  | _ => []

/-- The idx subscript of `str_without`: present only when `idx` is truthy. -/
def idxPart (idx : Option (List Nat)) : List Char :=
  match idx with
  | some (n :: ns) => '_' :: reprNatTup (n :: ns)
  | _ => []

/-- Source `VarKey.str_without` (varkey.py lines 73-84): the name followed by the
non-excluded truthy subscripts. -/
def str_without (k : VarKey) (exclLineage exclIdx exclModelnums : Bool) : List Char :=
  k.name ++ (if exclLineage then [] else linPart k.lineage (!exclModelnums))
    ++ (if exclIdx then [] else idxPart k.idx)

/-- Source line 40 of varkey.py: `self.cleanstr = self.str_without(["modelnums"])`. -/
def cleanstr (k : VarKey) : List Char := str_without k false false true

/-- Source `VarKey.__repr__`, which is `str_without()` with nothing excluded. -/
def reprVK (k : VarKey) : List Char := str_without k false false false

/-- Source line 41 of varkey.py: `self.eqstr = cleanstr + str(lineage) + unitrepr`
(varkey.py line 41). -/
def eqstr (k : VarKey) : List Char := cleanstr k ++ reprLin k.lineage ++ k.unitrepr

/-- Source `VarKey.__eq__` (varkey.py lines 129-132): equality on `eqstr`. -/
def vkBEq (a b : VarKey) : Bool := decide (eqstr a = eqstr b)

/-- A content hash of a character list (stands in for Python string hashing). -/
def charsHash (l : List Char) : Nat := l.foldl (fun a c => a * 131 + c.toNat + 1) 7

/-- Source line 42 of varkey.py: `self._hashvalue = hash(self.eqstr)`. -/
def vkHash (k : VarKey) : Nat := charsHash (eqstr k)

/-- The keyword-argument bag handed to `VarKey.__init__`: the unit-like
inputs, the structured optional attributes, and any remaining entries. -/
structure DescrIn : Type where
  name : Option (List Char)
  lineage : Option (List (List Char × Nat))
  idx : Option (List Nat)
  unitsArg : Option (List Char)
  unitreprArg : Option (List Char)
  extra : List (String × PyVal)

/-- Python `or` on optional strings (empty strings are falsy). -/
def pyOr (a b : Option (List Char)) : Option (List Char) :=
  match a with
  | some s => if s = [] then b else some s
  | none => b

/-- Modelled from the spec: the external unit service `qty` (small_classes is
not under src/), which returns a canonical unit representation for a unit
string; modelled as the canonical string itself. -/
def qty (s : List Char) : List Char := s

/-- Unit normalization of `VarKey.__init__` (varkey.py lines 31-37):
`""`, `"-"` and `None` collapse to the dimensionless sentinel
(`units = None`, `unitrepr = "-"`); anything else goes through `qty`. -/
def normUnits (d : DescrIn) : Option (List Char) × List Char :=
  match pyOr d.unitreprArg d.unitsArg with
  | none => (none, ['-'])
  | some s => if s = [] ∨ s = ['-'] then (none, ['-']) else (some (qty s), s)

/-- The anonymous placeholder name `"\\fbox{%s}" % VarKey.unique_id()`
(varkey.py line 30). -/
def fboxName (uid : Nat) : List Char :=
  '\\' :: 'f' :: 'b' :: 'o' :: 'x' :: lb :: (natChars uid ++ [rb])

/-- Whether the `name` argument is falsy (absent or the empty string). -/
def nameFalsy : Option (List Char) → Bool
  | none => true
  | some s => decide (s = [])

/-- Source line 30 of varkey.py: the resolved name, `str(name or fbox-placeholder)`. -/
def resolvedName (uid : Nat) (d : DescrIn) : List Char :=
  match d.name with
  | some s => if s = [] then fboxName uid else s
  | none => fboxName uid

/-- The unique-id counter after a construction; modelled from the spec: the
process-wide `Count` state (small_classes is not under src/) is threaded
explicitly and ticks exactly when an anonymous name is synthesized. -/
def nextUid (uid : Nat) (d : DescrIn) : Nat :=
  if nameFalsy d.name then uid + 1 else uid

/-- The core of `VarKey.__init__` (varkey.py lines 24-44): name resolution
and unit normalization, before any veckey synthesis. -/
def mkVarKeyCore (uid : Nat) (d : DescrIn) : VarKey :=
  VarKey.mk (resolvedName uid d) d.lineage d.idx (normUnits d).1 (normUnits d).2 d.extra none

/-- Source `vecdescr = self.descr.copy(); del vecdescr["idx"]` (varkey.py
lines 47-48): the component's resolved attribute bag with `idx` removed. -/
def vecdescr (k : VarKey) : DescrIn :=
  ⟨some k.name, k.lineage, none, k.units, some k.unitrepr, k.extra⟩

/-- Replace the veckey slot of a constructed key. -/
def setVeckey : VarKey → VarKey → VarKey
  | .mk n l i u ur e _, v => .mk n l i u ur e (some v)

/-- Source `VarKey.__init__` (varkey.py lines 24-55): builds the key and, when an
`idx` is present and no veckey was supplied, synthesizes the veckey from the
attribute bag with `idx` removed; returns the key and the updated counter. -/
def mkVarKey (uid : Nat) (d : DescrIn) : VarKey × Nat :=
  let k := mkVarKeyCore uid d
  let uid2 := nextUid uid d
  match d.idx with
  | none => (k, uid2)
  | some _ => (setVeckey k (mkVarKeyCore uid2 (vecdescr k)), uid2)

/-! ### Python attribute access on VarKey (`__getattr__`, varkey.py 86-87) -/

/-- The descr dict of a constructed key (kwargs plus the normalized
`name`/`units`/`unitrepr` entries written back by `__init__`). -/
def descrPairs (k : VarKey) : List (String × PyVal) :=
  [(("name" : String), PyVal.pstr k.name)]
    ++ (match k.lineage with
        | some l => [(("lineage" : String), PyVal.plineage l)]
        | none => [])
    ++ (match k.idx with
        | some i => [(("idx" : String), PyVal.pidx i)]
        | none => [])
    ++ [(("units" : String), match k.units with
         | some u => PyVal.pstr u
         | none => PyVal.pnone),
        (("unitrepr" : String), PyVal.pstr k.unitrepr)]
    ++ k.extra

/-- Lookup in the attribute bag. -/
def descrGet (k : VarKey) (a : String) : Option PyVal :=
  List.lookup a (descrPairs k)

/-- The attributes set directly on the instance by `__init__` (varkey.py
lines 39-55): `descr`, `key`, `cleanstr`, `eqstr`, `_hashvalue`, `keys`,
`hmap`, and `veckey` when one was synthesized. -/
def instanceAttrs (k : VarKey) : List String :=
  [("descr" : String), ("key" : String), ("cleanstr" : String), ("eqstr" : String),
   ("_hashvalue" : String), ("keys" : String), ("hmap" : String)]
    ++ (match k.veckey with
        | some _ => [("veckey" : String)]
        | none => [])

/-- The attributes found on the `VarKey` class: the class attributes
`unique_id` and `subscripts` (varkey.py lines 21-22), every method defined in
the class body (varkey.py lines 24-135: `__init__`, `__repr__`,
`__getstate__`, `__setstate__`, `str_without`, `__getattr__`, the `models`
property, `latex_unitstr`, `latex`, `_repr_latex_`, `__hash__`, `__eq__`,
`__ne__`), and the attributes inherited from `GPkitObject` that varkey.py
itself calls — `unitstr` (line 95) and `lineagestr` (line 82); built-in
attributes of Python's base `object` lie outside the modelled attribute
universe. -/
def classAttrs : List String :=
  [("unique_id" : String), ("subscripts" : String), ("__init__" : String),
   ("__repr__" : String), ("__getstate__" : String), ("__setstate__" : String),
   ("str_without" : String), ("__getattr__" : String), ("models" : String),
   ("latex_unitstr" : String), ("latex" : String), ("_repr_latex_" : String),
   ("__hash__" : String), ("__eq__" : String), ("__ne__" : String),
   ("unitstr" : String), ("lineagestr" : String)]

/-- The value found for an instance attribute (opaque where the attribute is
an object our value type does not represent). -/
def instanceVal (k : VarKey) (a : String) : PyVal :=
  if a = ("cleanstr" : String) then PyVal.pstr (cleanstr k)
  else if a = ("eqstr" : String) then PyVal.pstr (eqstr k)
  else if a = ("_hashvalue" : String) then PyVal.pnat (vkHash k)
  else PyVal.pobj a.toList

/-- The value found for a class attribute. -/
def classVal (a : String) : PyVal :=
  if a = ("subscripts" : String) then PyVal.pstrs [("lineage").toList, ("idx").toList]
  else PyVal.pobj a.toList

/-- Python attribute access on a constructed VarKey: the instance dict is
searched first, then the class, and only on failure does `__getattr__`
(varkey.py lines 86-87) run, returning `descr.get(attr, None)`; access
therefore never raises. -/
def pyGetAttr (k : VarKey) (a : String) : Except (List Char) PyVal :=
  if a ∈ instanceAttrs k then Except.ok (instanceVal k a)
  else if a ∈ classAttrs then Except.ok (classVal a)
  else Except.ok ((descrGet k a).getD PyVal.pnone)

/-! ### The NomialMap / NomialData model (`gpkit/nomials/data.py`) -/

/-- An exponent vector: a dict from VarKey to exponent. -/
abbrev ExpVec := List (VarKey × ℚ)

/-- Dict equality of exponent vectors (HashVector keys compare via
`VarKey.__eq__`). -/
def expKb (a b : ExpVec) : Bool := dictBeq vkBEq a b

/-- Modelled from the spec: `NomialMap` (nomials/map.py is not under src/), a
mapping from exponent vector to coefficient with one attached unit. -/
structure NomialMap : Type where
  terms : List (ExpVec × ℚ)
  units : Option (List Char)

/-- The insertion-ordered, duplicate-collapsed variable set of a map
(`NomialData.__init__`, data.py lines 24-28). -/
def vksOf (terms : List (ExpVec × ℚ)) : List VarKey :=
  terms.foldl
    (fun acc t =>
      t.1.foldl
        (fun acc2 p => if acc2.any (fun w => vkBEq p.1 w) then acc2 else acc2 ++ [p.1])
        acc)
    []

/-- The NomialData aggregate: the eager fields of `__init__` plus one cache
slot per lazily realized view (`_reset`, data.py lines 33-35). -/
structure NomialData : Type where
  hmap : NomialMap
  vks : List VarKey
  units : Option (List Char)
  any_nonpositive_cs : Bool
  hashvalueC : Option Nat
  varlocsC : Option (List (VarKey × List Nat))
  expsC : Option (List ExpVec)
  csC : Option (List ℚ)
  varkeysC : Option (List VarKey)
  valuesC : Option (List (VarKey × PyVal))

/-- Source `NomialData.__init__` (data.py lines 21-31). -/
def mkNomialData (m : NomialMap) : NomialData :=
  ⟨m, vksOf m.terms, m.units, m.terms.any (fun t => decide (t.2 ≤ 0)),
    none, none, none, none, none, none⟩

/-- The exps view content: the map's keys in enumeration order. -/
def expsOf (m : NomialMap) : List ExpVec := m.terms.map (fun t => t.1)

/-- The cs view content: the map's coefficients in enumeration order. -/
def csOf (m : NomialMap) : List ℚ := m.terms.map (fun t => t.2)

/-- Append a term index to a variable's occurrence list, dict-style. -/
def varlocsUpsert (m : List (VarKey × List Nat)) (k : VarKey) (i : Nat) :
    List (VarKey × List Nat) :=
  match m with
  | [] => [(k, [i])]
  | p :: rest => if vkBEq p.1 k then (p.1, p.2 ++ [i]) :: rest else p :: varlocsUpsert rest k i

/-- The varlocs view content (data.py lines 38-46). -/
def varlocsOf (exps : List ExpVec) : List (VarKey × List Nat) :=
  exps.enum.foldl (fun m ie => ie.2.foldl (fun m2 p => varlocsUpsert m2 p.1 ie.1) m) []

/-- The values view content (data.py lines 77-82). -/
def valuesOf (vks : List VarKey) : List (VarKey × PyVal) :=
  vks.filterMap (fun k => (List.lookup ("value" : String) k.extra).map (fun v => (k, v)))

/-- A hash of one map entry. -/
def mix2 (a b : Nat) : Nat := (a + b) * (a + b + 1) + 2 * a

/-- A hash of a rational coefficient or exponent. -/
def ratHash (q : ℚ) : Nat := q.num.natAbs + 57 * q.den + (if q.num < 0 then 13 else 0)

/-- Modelled from the spec: the `HashVector` content hash (small_classes is
not under src/), a pure function of dict content, independent of insertion
order — realized as a sum over entries. -/
def expHash (e : ExpVec) : Nat := (e.map (fun p => mix2 (vkHash p.1) (ratHash p.2))).sum

/-- Modelled from the spec: the `NomialMap` content hash, a pure function of
the map's term content. -/
def mapContentHash (m : NomialMap) : Nat :=
  (m.terms.map (fun t => mix2 (expHash t.1) (ratHash t.2))).sum

/-- Python `str` of the units attribute. -/
def pyStrUnits (u : Option (List Char)) : List Char :=
  match u with
  | some s => s
  | none => ("None").toList

/-- Source line 66 of data.py: `hash(hash(self.hmap) + hash(str(self.hmap.units)))`. -/
def ndHashOf (d : NomialData) : Nat :=
  mapContentHash d.hmap + charsHash (pyStrUnits d.units)

/-- The memoized `__hash__` (data.py lines 64-67), with its cache slot. -/
def viewHash (d : NomialData) : Nat × NomialData :=
  match d.hashvalueC with
  | some h => (h, d)
  | none => (ndHashOf d, { d with hashvalueC := some (ndHashOf d) })

/-- The memoized `exps` property (data.py lines 48-52). -/
def viewExps (d : NomialData) : List ExpVec × NomialData :=
  match d.expsC with
  | some v => (v, d)
  | none => (expsOf d.hmap, { d with expsC := some (expsOf d.hmap) })

/-- The memoized `cs` property (data.py lines 54-60). -/
def viewCs (d : NomialData) : List ℚ × NomialData :=
  match d.csC with
  | some v => (v, d)
  | none => (csOf d.hmap, { d with csC := some (csOf d.hmap) })

/-- The memoized `varlocs` property (data.py lines 37-46); realizing it also
realizes `exps`, which it reads. -/
def viewVarlocs (d : NomialData) : List (VarKey × List Nat) × NomialData :=
  match d.varlocsC with
  | some v => (v, d)
  | none =>
    let ed := viewExps d
    (varlocsOf ed.1, { ed.2 with varlocsC := some (varlocsOf ed.1) })

/-- The memoized `varkeys` property (data.py lines 69-74), the KeySet built
over `vks`, modelled as the key list itself. -/
def viewVarkeys (d : NomialData) : List VarKey × NomialData :=
  match d.varkeysC with
  | some v => (v, d)
  | none => (d.vks, { d with varkeysC := some d.vks })

/-- The memoized `values` property (data.py lines 76-82). -/
def viewValues (d : NomialData) : List (VarKey × PyVal) × NomialData :=
  match d.valuesC with
  | some v => (v, d)
  | none => (valuesOf d.vks, { d with valuesC := some (valuesOf d.vks) })

/-- Modelled from the spec: KeySet lookup (keydict.py is not under src/) —
a variable reference resolves to every key in the set whose rendered name
matches it under the lineage-disambiguation rules. -/
def resolve (vks : List VarKey) (r : List Char) : List VarKey :=
  vks.filter (fun k => decide (k.name = r) || decide (cleanstr k = r))

/-- Modelled from the spec: unit reconciliation for differentiation — the
original unit divided by the differentiation variable's unit. -/
def unitDiv (a b : Option (List Char)) : Option (List Char) :=
  match a, b with
  | x, none => x
  | none, some v => some ('1' :: '/' :: '(' :: (v ++ [')']))
  | some u, some v => some (u ++ '/' :: '(' :: (v ++ [')']))

/-- Modelled from the spec: the derivative of one map term with respect to a
variable — exponent `e` becomes `e-1` (erased when the result is zero) and
the coefficient is multiplied by `e`; terms not containing the variable
contribute an explicit zero term. -/
def diffTerm (t : ExpVec × ℚ) (v : VarKey) : ExpVec × ℚ :=
  match (alookup vkBEq t.1 v).getD 0 with
  | ex =>
    if ex = 0 then (t.1, 0)
    else
      (if ex - 1 = 0 then t.1.filter (fun p => ! vkBEq p.1 v)
       else t.1.map (fun p => if vkBEq p.1 v then (p.1, ex - 1) else p),
       t.2 * ex)

/-- Modelled from the spec: `NomialMap.diff` (nomials/map.py is not under
src/). -/
def hmapDiff (m : NomialMap) (v : VarKey) : NomialMap :=
  ⟨m.terms.map (fun t => diffTerm t v), unitDiv m.units v.units⟩

/-- The zero-constant map built by `NomialData.diff` when no variable matches
(data.py lines 100-102): one empty-exponent, zero-coefficient term and no
unit. -/
def zeroHmap : NomialMap := ⟨[([], 0)], none⟩

/-- The message of the `ValueError` raised on an ambiguous reference
(data.py lines 98-99): `"multiple variables %s found for key %s"`. -/
def multiMsg (varset : List VarKey) (r : List Char) : List Char :=
  ("multiple variables [").toList
    ++ List.intercalate (", ").toList (varset.map reprVK)
    ++ (("]" : String)).toList ++ (" found for key ").toList ++ r

/-- Source `NomialData.diff` (data.py lines 84-106): resolves the reference against
the aggregate's own key set (realizing the `varkeys` cache), raises on more
than one match, returns the zero constant on zero matches, and otherwise
differentiates the map; the receiver after the call is returned alongside
the fresh result. -/
def NomialData.diff (d : NomialData) (r : List Char) :
    Except (List Char) (NomialData × NomialData) :=
  let vd := viewVarkeys d
  let varset := resolve vd.1 r
  match varset with
  | [] => Except.ok (vd.2, mkNomialData zeroHmap)
  | [vk] => Except.ok (vd.2, mkNomialData (hmapDiff vd.2.hmap vk))
  | _ => Except.error (multiMsg varset r)

/-- Source `NomialData.__eq__` (data.py lines 108-116): dict equality of the
underlying maps and identical units. -/
def ndEq (a b : NomialData) : Bool :=
  dictBeq expKb a.hmap.terms b.hmap.terms && decide (a.units = b.units)

/-- Well-formedness of a map: the Python-dict no-duplicate-key invariant at
both the term and the exponent-vector level. -/
def wfMap (m : NomialMap) : Prop :=
  nodupKeys expKb m.terms ∧ ∀ t ∈ m.terms, nodupKeys vkBEq t.1

/-- A model name is wellformed when it contains neither the repr quote nor an
opening parenthesis (as real model and variable identifiers do not). -/
def wfName (s : List Char) : Prop := qc ∉ s ∧ '(' ∉ s

/-- Wellformedness of a lineage: every model name is wellformed. -/
def wfLineage : Option (List (List Char × Nat)) → Prop
  | none => True
  | some l => ∀ p ∈ l, wfName p.1

/-! ### Concrete sample inputs used by witnesses and counterexamples -/

/-- A plain scalar variable named `x`. -/
def sampleX : DescrIn := ⟨some ['x'], none, none, none, none, []⟩

/-- A variable named `x` inside sub-model `A`. -/
def sampleXA : DescrIn := ⟨some ['x'], some [(['A'], 0)], none, none, none, []⟩

/-- A variable named `x` inside sub-model `B`. -/
def sampleXB : DescrIn := ⟨some ['x'], some [(['B'], 0)], none, none, none, []⟩

/-- A vector-component input: name `v`, index `(0,)`, units `m`. -/
def sampleVec : DescrIn := ⟨some ['v'], none, some [0], some ['m'], none, []⟩

def keyX : VarKey := (mkVarKey 0 sampleX).1

def keyXA : VarKey := (mkVarKey 0 sampleXA).1

def keyXB : VarKey := (mkVarKey 0 sampleXB).1

def keyY : VarKey := (mkVarKey 0 ⟨some ['y'], none, none, none, none, []⟩).1

/-- A map whose variable set contains two distinct keys both named `x`. -/
def ambMap : NomialMap := ⟨[([(keyXA, 1)], 2), ([(keyXB, 2)], 3)], none⟩

/-- A small two-term map over `x` and `y`. -/
def xyMap : NomialMap := ⟨[([(keyX, 1)], 3), ([(keyY, 2)], -1)], none⟩

/-- The same term content as `xyMap` in the opposite insertion order. -/
def yxMap : NomialMap := ⟨[([(keyY, 2)], -1), ([(keyX, 1)], 3)], none⟩

/-! ## Theorems -/

/-! ### Character-list splitting and decimal rendering -/

theorem marker_split {α : Type} (m : α) :
    ∀ (a b t1 t2 : List α), m ∉ a → m ∉ b → a ++ m :: t1 = b ++ m :: t2 →
      a = b ∧ t1 = t2 := by
  intro a
  induction a with
  | nil =>
    intro b t1 t2 _ hb h
    cases b with
    | nil =>
      refine ⟨rfl, ?_⟩
      simpa using h
    | cons x bs =>
      rw [List.nil_append, List.cons_append] at h
      injection h with h1 h2
      subst h1
      exact absurd (List.mem_cons_self _ _) hb
  | cons y as ih =>
    intro b t1 t2 ha hb h
    cases b with
    | nil =>
      rw [List.cons_append, List.nil_append] at h
      injection h with h1 h2
      subst h1
      exact absurd (List.mem_cons_self _ _) ha
    | cons x bs =>
      rw [List.cons_append, List.cons_append] at h
      injection h with h1 h2
      subst h1
      have hha : m ∉ as := fun hm => ha (List.mem_cons_of_mem _ hm)
      have hhb : m ∉ bs := fun hm => hb (List.mem_cons_of_mem _ hm)
      obtain ⟨e1, e2⟩ := ih bs t1 t2 hha hhb h2
      exact ⟨by rw [e1], e2⟩

theorem natDigitsRevAux_decode :
    ∀ (f n : Nat), n ≤ f → ofDigitsRev (natDigitsRevAux f n) = n := by
  intro f
  induction f with
  | zero =>
    intro n h
    have h0 : n = 0 := Nat.le_zero.mp h
    subst h0
    rfl
  | succ f ih =>
    intro n h
    by_cases h0 : n = 0
    · subst h0
      simp [natDigitsRevAux, ofDigitsRev]
    · rw [natDigitsRevAux, if_neg h0, ofDigitsRev]
      have hlt : n / 10 < n := Nat.div_lt_self (Nat.pos_of_ne_zero h0) (by norm_num)
      rw [ih (n / 10) (by omega)]
      exact Nat.mod_add_div n 10

theorem natDigitsRevAux_lt : ∀ (f n d : Nat), d ∈ natDigitsRevAux f n → d < 10 := by
  intro f
  induction f with
  | zero =>
    intro n d h
    simp [natDigitsRevAux] at h
  | succ f ih =>
    intro n d h
    rw [natDigitsRevAux] at h
    split at h
    · simp at h
    · rcases List.mem_cons.mp h with h1 | h2
      · exact h1 ▸ Nat.mod_lt _ (by norm_num)
      · exact ih _ _ h2

theorem map_digitCh_inj :
    ∀ (l1 l2 : List Nat), (∀ x ∈ l1, x < 10) → (∀ x ∈ l2, x < 10) →
      l1.map digitCh = l2.map digitCh → l1 = l2 := by
  have hd : ∀ a : Nat, a < 10 → ∀ b : Nat, b < 10 → digitCh a = digitCh b → a = b := by
    decide
  intro l1
  induction l1 with
  | nil =>
    intro l2 _ _ h
    cases l2 with
    | nil => rfl
    | cons x xs => simp at h
  | cons x xs ih =>
    intro l2 h1 h2 h
    cases l2 with
    | nil => simp at h
    | cons y ys =>
      simp only [List.map_cons, List.cons.injEq] at h
      have hx := h1 x (List.mem_cons_self _ _)
      have hy := h2 y (List.mem_cons_self _ _)
      have hxy := hd x hx y hy h.1
      subst hxy
      have := ih ys (fun z hz => h1 z (List.mem_cons_of_mem _ hz))
        (fun z hz => h2 z (List.mem_cons_of_mem _ hz)) h.2
      rw [this]

theorem natChars_inj : ∀ (m n : Nat), natChars m = natChars n → m = n := by
  have key : ∀ k : Nat, k ≠ 0 → natChars k = ['0'] → False := by
    intro k hk h
    rw [natChars, if_neg hk] at h
    have h2 : (natDigitsRev k).map digitCh = ['0'].reverse.reverse → False := by
      intro h3
      rw [List.reverse_reverse] at h3
      have : natDigitsRev k = [0] := by
        have h0 : ([0] : List Nat).map digitCh = ['0'] := by decide
        exact map_digitCh_inj _ _ (fun x hx => natDigitsRevAux_lt _ _ _ hx)
          (by intro x hx; simp at hx; omega) (by rw [h3, ← h0])
      have hdec := natDigitsRevAux_decode k k le_rfl
      rw [show natDigitsRevAux k k = natDigitsRev k from rfl, this] at hdec
      simp [ofDigitsRev] at hdec
      exact hk hdec.symm
    apply h2
    rw [List.reverse_reverse]
    have : ((natDigitsRev k).map digitCh).reverse = ['0'] := h
    calc (natDigitsRev k).map digitCh
        = ((natDigitsRev k).map digitCh).reverse.reverse := by rw [List.reverse_reverse]
      _ = ['0'].reverse := by rw [this]
  intro m n h
  by_cases hm : m = 0
  · subst hm
    by_cases hn : n = 0
    · omega
    · exact absurd h.symm (fun hh => (key n hn hh).elim)
  · by_cases hn : n = 0
    · subst hn
      exact absurd h (fun hh => (key m hm hh).elim)
    · rw [natChars, if_neg hm, natChars, if_neg hn] at h
      have h2 := List.reverse_injective h
      have h3 := map_digitCh_inj _ _ (fun x hx => natDigitsRevAux_lt _ _ _ hx)
        (fun x hx => natDigitsRevAux_lt _ _ _ hx) h2
      have dm := natDigitsRevAux_decode m m le_rfl
      have dn := natDigitsRevAux_decode n n le_rfl
      rw [← dm, ← dn]
      exact congrArg ofDigitsRev h3

theorem natChars_mem : ∀ (n : Nat) (c : Char), c ∈ natChars n → ∃ d, d < 10 ∧ c = digitCh d := by
  intro n c h
  by_cases hn : n = 0
  · subst hn
    simp [natChars] at h
    exact ⟨0, by omega, by rw [h]; rfl⟩
  · rw [natChars, if_neg hn] at h
    rw [List.mem_reverse] at h
    obtain ⟨d, hd, hc⟩ := List.mem_map.mp h
    exact ⟨d, natDigitsRevAux_lt _ _ _ hd, hc.symm⟩

theorem natChars_notMem :
    ∀ (n : Nat) (c : Char), c ∈ natChars n →
      c ≠ ')' ∧ c ≠ '(' ∧ c ≠ qc ∧ c ≠ rb ∧ c ≠ ',' := by
  intro n c h
  obtain ⟨d, hd, hc⟩ := natChars_mem n c h
  subst hc
  have key : ∀ d : Nat, d < 10 →
      digitCh d ≠ ')' ∧ digitCh d ≠ '(' ∧ digitCh d ≠ qc ∧ digitCh d ≠ rb
        ∧ digitCh d ≠ ',' := by decide
  exact key d hd

theorem prefixB_append : ∀ (p s : List Char), prefixB p (p ++ s) = true := by
  intro p
  induction p with
  | nil => intro s; rfl
  | cons c cs ih => intro s; simp [prefixB, ih]

theorem containsSub_append (p s : List Char) : containsSub p (p ++ s) = true := by
  cases hh : p ++ s with
  | nil => rw [containsSub, ← hh, prefixB_append]
  | cons c r => rw [containsSub, ← hh, prefixB_append]; rfl

/-! ### Constructor field lemmas -/

theorem mkVarKey_fields (uid : Nat) (d : DescrIn) :
    (mkVarKey uid d).1.name = resolvedName uid d
    ∧ (mkVarKey uid d).1.lineage = d.lineage
    ∧ (mkVarKey uid d).1.idx = d.idx
    ∧ (mkVarKey uid d).1.units = (normUnits d).1
    ∧ (mkVarKey uid d).1.unitrepr = (normUnits d).2
    ∧ (mkVarKey uid d).1.extra = d.extra := by
  cases hix : d.idx <;>
    simp [mkVarKey, mkVarKeyCore, setVeckey, hix, VarKey.name, VarKey.lineage,
      VarKey.idx, VarKey.units, VarKey.unitrepr, VarKey.extra]

theorem mkVarKey_counter (uid : Nat) (d : DescrIn) :
    (mkVarKey uid d).2 = nextUid uid d := by
  cases hix : d.idx <;> simp [mkVarKey, hix]

theorem resolvedName_ne_nil (uid : Nat) (d : DescrIn) : resolvedName uid d ≠ [] := by
  rw [resolvedName]
  cases d.name with
  | none => simp [fboxName]
  | some s =>
    by_cases hs : s = []
    · simp [hs, fboxName]
    · simp [hs]

theorem normUnits_units_of_unitrepr (d1 d2 : DescrIn) :
    (normUnits d1).2 = (normUnits d2).2 → (normUnits d1).1 = (normUnits d2).1 := by
  have shape : ∀ d : DescrIn,
      (normUnits d = (none, ['-'])) ∨
      ((normUnits d).1 = some (normUnits d).2 ∧ (normUnits d).2 ≠ ['-']) := by
    intro d
    rcases hp : pyOr d.unitreprArg d.unitsArg with _ | s
    · left
      simp only [normUnits, hp]
    · by_cases hs : s = [] ∨ s = ['-']
      · left
        simp only [normUnits, hp]
        rw [if_pos hs]
      · have hd : normUnits d = (some (qty s), s) := by
          simp only [normUnits, hp]
          rw [if_neg hs]
        push_neg at hs
        right
        rw [hd]
        exact ⟨rfl, by simpa [qty] using hs.2⟩
  intro h
  rcases shape d1 with h1 | ⟨h1, h1n⟩ <;> rcases shape d2 with h2 | ⟨h2, h2n⟩
  · rw [h1, h2]
  · rw [h1] at h ⊢
    exact absurd h.symm h2n
  · rw [h2] at h ⊢
    exact absurd h h1n
  · rw [h1, h2, h]

/-! ### Claim C1: differentiation with respect to an absent variable -/

/-- C1: when the variable reference resolves to no key in the aggregate's key
set, `NomialData.diff` does not raise: it returns a fresh NomialData whose map
has exactly one term, with the empty exponent vector and coefficient zero, and
no unit (the dimensionless sentinel). -/
theorem claim_C1 (m : NomialMap) (r : List Char)
    (h : resolve (vksOf m.terms) r = []) :
    NomialData.diff (mkNomialData m) r
      = Except.ok ({ mkNomialData m with varkeysC := some (vksOf m.terms) },
          mkNomialData zeroHmap)
    ∧ (mkNomialData zeroHmap).hmap.terms = [([], 0)]
    ∧ (mkNomialData zeroHmap).hmap.units = none := by
  refine ⟨?_, rfl, rfl⟩
  have hv : viewVarkeys (mkNomialData m)
      = (vksOf m.terms, { mkNomialData m with varkeysC := some (vksOf m.terms) }) := rfl
  rw [NomialData.diff, hv]
  simp only [h]

theorem claim_C1_witness :
    NomialData.diff (mkNomialData zeroHmap) ['q']
      = Except.ok ({ mkNomialData zeroHmap with varkeysC := some (vksOf zeroHmap.terms) },
          mkNomialData zeroHmap)
    ∧ (mkNomialData zeroHmap).hmap.terms = [([], 0)]
    ∧ (mkNomialData zeroHmap).hmap.units = none :=
  claim_C1 zeroHmap ['q'] rfl

/-! ### Claim C2: ambiguous variable references -/

/-- C2 (amended): with more than one matching key `diff` raises an error whose
message contains `"multiple variables"` (not `"multiple matching variables"`
as claimed), and it raises in exactly this case: zero matches and exactly one
match both return successfully. -/
theorem claim_C2 (m : NomialMap) (r : List Char) :
    (∀ k1 k2 rest, resolve (vksOf m.terms) r = k1 :: k2 :: rest →
        NomialData.diff (mkNomialData m) r
          = Except.error (multiMsg (k1 :: k2 :: rest) r)
        ∧ containsSub (("multiple variables").toList) (multiMsg (k1 :: k2 :: rest) r)
            = true)
    ∧ (resolve (vksOf m.terms) r = [] →
        NomialData.diff (mkNomialData m) r
          = Except.ok ({ mkNomialData m with varkeysC := some (vksOf m.terms) },
              mkNomialData zeroHmap))
    ∧ (∀ k, resolve (vksOf m.terms) r = [k] →
        NomialData.diff (mkNomialData m) r
          = Except.ok ({ mkNomialData m with varkeysC := some (vksOf m.terms) },
              mkNomialData (hmapDiff m k))) := by
  have hv : viewVarkeys (mkNomialData m)
      = (vksOf m.terms, { mkNomialData m with varkeysC := some (vksOf m.terms) }) := rfl
  refine ⟨?_, ?_, ?_⟩
  · intro k1 k2 rest hr
    constructor
    · rw [NomialData.diff, hv]
      simp only [hr]
    · have hmsg : multiMsg (k1 :: k2 :: rest) r
          = ("multiple variables").toList
            ++ (' ' :: '[' :: (List.intercalate (", ").toList
                  ((k1 :: k2 :: rest).map reprVK)
                ++ (("]" : String)).toList ++ (" found for key ").toList ++ r)) := by
        rw [multiMsg]
        simp [List.append_assoc]
      rw [hmsg]
      exact containsSub_append _ _
  · intro hr
    rw [NomialData.diff, hv]
    simp only [hr]
  · intro k hr
    rw [NomialData.diff, hv]
    simp only [hr]
    rfl

theorem claim_C2_witness :
    NomialData.diff (mkNomialData ambMap) ['x']
      = Except.error (multiMsg [keyXA, keyXB] ['x'])
    ∧ containsSub (("multiple variables").toList) (multiMsg [keyXA, keyXB] ['x'])
        = true :=
  (claim_C2 ambMap ['x']).1 keyXA keyXB [] rfl

/-- C2 counterexample: at a concrete ambiguous reference the raised message is
`"multiple variables [x_A, x_B] found for key x"`, which does not contain the
substring `"multiple matching variables"` asserted by the claim. -/
theorem claim_C2_counterexample :
    NomialData.diff (mkNomialData ambMap) ['x']
      = Except.error (multiMsg [keyXA, keyXB] ['x'])
    ∧ containsSub (("multiple matching variables").toList)
        (multiMsg [keyXA, keyXB] ['x']) = false := by
  exact ⟨rfl, rfl⟩

/-! ### Claim C6: unit-input normalization to the dimensionless sentinel -/

/-- C6: the unit-like inputs `None`, `""` and `"-"` all normalize to the
single dimensionless sentinel (`units = None`, `unitrepr = "-"`); with all
other attributes matching, the three resulting keys are (structurally, hence
under `__eq__` and `__hash__`) identical. -/
theorem claim_C6 (uid : Nat) (nm : Option (List Char))
    (lin : Option (List (List Char × Nat))) (ix : Option (List Nat))
    (ex : List (String × PyVal)) :
    (mkVarKey uid ⟨nm, lin, ix, none, none, ex⟩).1.units = none
    ∧ (mkVarKey uid ⟨nm, lin, ix, none, none, ex⟩).1.unitrepr = ['-']
    ∧ (mkVarKey uid ⟨nm, lin, ix, some [], none, ex⟩).1
        = (mkVarKey uid ⟨nm, lin, ix, none, none, ex⟩).1
    ∧ (mkVarKey uid ⟨nm, lin, ix, some ['-'], none, ex⟩).1
        = (mkVarKey uid ⟨nm, lin, ix, none, none, ex⟩).1
    ∧ vkBEq (mkVarKey uid ⟨nm, lin, ix, some [], none, ex⟩).1
        (mkVarKey uid ⟨nm, lin, ix, some ['-'], none, ex⟩).1 = true
    ∧ vkHash (mkVarKey uid ⟨nm, lin, ix, some [], none, ex⟩).1
        = vkHash (mkVarKey uid ⟨nm, lin, ix, some ['-'], none, ex⟩).1 := by
  have h1 : (mkVarKey uid ⟨nm, lin, ix, some [], none, ex⟩).1
      = (mkVarKey uid ⟨nm, lin, ix, none, none, ex⟩).1 := by
    cases ix <;> rfl
  have h2 : (mkVarKey uid ⟨nm, lin, ix, some ['-'], none, ex⟩).1
      = (mkVarKey uid ⟨nm, lin, ix, none, none, ex⟩).1 := by
    cases ix <;> rfl
  have h3 : (mkVarKey uid ⟨nm, lin, ix, none, none, ex⟩).1.units = none := by
    rw [(mkVarKey_fields uid ⟨nm, lin, ix, none, none, ex⟩).2.2.2.1]
    rfl
  have h4 : (mkVarKey uid ⟨nm, lin, ix, none, none, ex⟩).1.unitrepr = ['-'] := by
    rw [(mkVarKey_fields uid ⟨nm, lin, ix, none, none, ex⟩).2.2.2.2.1]
    rfl
  refine ⟨h3, h4, h1, h2, ?_, ?_⟩
  · rw [h1, h2]
    simp [vkBEq]
  · rw [h1, h2]

/-! ### Claim C7: veckey synthesis for vector components -/

/-- C7: a key constructed with an `idx` and no supplied veckey gets a
synthesized veckey, equal to a VarKey freshly constructed (at any counter
state) from the component's resolved attribute bag with `idx` removed; the
synthesized veckey itself has no `idx` and no veckey, so the synthesis
happens exactly once. -/
theorem claim_C7 (uid uid2 : Nat) (d : DescrIn) (ix : List Nat)
    (hix : d.idx = some ix) :
    (mkVarKey uid d).1.veckey
      = some ((mkVarKey uid2 (vecdescr ((mkVarKey uid d).1))).1)
    ∧ (∀ v, (mkVarKey uid d).1.veckey = some v → v.idx = none ∧ v.veckey = none) := by
  have hcore : mkVarKey uid d
      = (setVeckey (mkVarKeyCore uid d) (mkVarKeyCore (nextUid uid d)
          (vecdescr (mkVarKeyCore uid d))), nextUid uid d) := by
    rw [mkVarKey, hix]
  have hvd : vecdescr ((mkVarKey uid d).1) = vecdescr (mkVarKeyCore uid d) := by
    rw [hcore]
    rfl
  have hn : ∀ u : Nat, resolvedName u (vecdescr (mkVarKeyCore uid d))
      = (mkVarKeyCore uid d).name := by
    intro u
    have hne := resolvedName_ne_nil uid d
    show resolvedName u (vecdescr (mkVarKeyCore uid d)) = resolvedName uid d
    rw [resolvedName]
    show (match some (resolvedName uid d) with
      | some s => if s = [] then fboxName u else s
      | none => fboxName u) = resolvedName uid d
    simp [hne]
  have hsame : ∀ u1 u2 : Nat,
      mkVarKeyCore u1 (vecdescr (mkVarKeyCore uid d))
        = mkVarKeyCore u2 (vecdescr (mkVarKeyCore uid d)) := by
    intro u1 u2
    have e1 : ∀ u : Nat, mkVarKeyCore u (vecdescr (mkVarKeyCore uid d))
        = VarKey.mk (resolvedName u (vecdescr (mkVarKeyCore uid d)))
            (vecdescr (mkVarKeyCore uid d)).lineage (vecdescr (mkVarKeyCore uid d)).idx
            (normUnits (vecdescr (mkVarKeyCore uid d))).1
            (normUnits (vecdescr (mkVarKeyCore uid d))).2
            (vecdescr (mkVarKeyCore uid d)).extra none := fun u => rfl
    rw [e1 u1, e1 u2, hn u1, hn u2]
  have hvk : (mkVarKey uid d).1.veckey
      = some (mkVarKeyCore (nextUid uid d) (vecdescr (mkVarKeyCore uid d))) := by
    rw [hcore]
    rfl
  constructor
  · rw [hvk, hvd]
    have hidx0 : (vecdescr (mkVarKeyCore uid d)).idx = none := rfl
    have : mkVarKey uid2 (vecdescr (mkVarKeyCore uid d))
        = (mkVarKeyCore uid2 (vecdescr (mkVarKeyCore uid d)),
            nextUid uid2 (vecdescr (mkVarKeyCore uid d))) := by
      rw [mkVarKey, hidx0]
    rw [this]
    rw [hsame (nextUid uid d) uid2]
  · intro v hv
    rw [hvk] at hv
    injection hv with hv
    subst hv
    exact ⟨rfl, rfl⟩

theorem claim_C7_witness :
    ((mkVarKey 0 sampleVec).1.veckey
      = some ((mkVarKey 99 (vecdescr ((mkVarKey 0 sampleVec).1))).1))
    ∧ (∀ v, (mkVarKey 0 sampleVec).1.veckey = some v → v.idx = none ∧ v.veckey = none) :=
  claim_C7 0 99 sampleVec [0] rfl

/-! ### Claim C8: anonymous naming and the creation-order counter -/

/-- C8: a construction with no (or an empty) supplied name receives the
placeholder name built from the current counter value, and the counter is
bumped; the counter never decreases; placeholder names at distinct counter
values are distinct, so successive anonymous constructions receive distinct
names. -/
theorem claim_C8 :
    (∀ (uid : Nat) (d : DescrIn), nameFalsy d.name = true →
        (mkVarKey uid d).1.name = fboxName uid ∧ (mkVarKey uid d).2 = uid + 1)
    ∧ (∀ (uid : Nat) (d : DescrIn), uid ≤ (mkVarKey uid d).2)
    ∧ (∀ u1 u2 : Nat, u1 ≠ u2 → fboxName u1 ≠ fboxName u2)
    ∧ (∀ (uid : Nat) (d1 d2 : DescrIn), nameFalsy d1.name = true →
        nameFalsy d2.name = true →
        (mkVarKey uid d1).1.name ≠ (mkVarKey ((mkVarKey uid d1).2) d2).1.name) := by
  have hfbox : ∀ u1 u2 : Nat, u1 ≠ u2 → fboxName u1 ≠ fboxName u2 := by
    intro u1 u2 hne h
    simp only [fboxName, List.cons.injEq, true_and] at h
    have hm := marker_split rb (natChars u1) (natChars u2) [] []
      (fun hmem => ((natChars_notMem _ _ hmem).2.2.2.1) rfl)
      (fun hmem => ((natChars_notMem _ _ hmem).2.2.2.1) rfl)
      (by simpa using h)
    exact hne (natChars_inj _ _ hm.1)
  have hname : ∀ (uid : Nat) (d : DescrIn), nameFalsy d.name = true →
      (mkVarKey uid d).1.name = fboxName uid ∧ (mkVarKey uid d).2 = uid + 1 := by
    intro uid d hf
    constructor
    · rw [(mkVarKey_fields uid d).1, resolvedName]
      cases hn : d.name with
      | none => rfl
      | some s =>
        rw [hn] at hf
        simp only [nameFalsy, decide_eq_true_eq] at hf
        simp [hf]
    · rw [mkVarKey_counter, nextUid, hf]
      rfl
  refine ⟨hname, ?_, hfbox, ?_⟩
  · intro uid d
    rw [mkVarKey_counter, nextUid]
    by_cases hf : nameFalsy d.name = true
    · simp [hf]
    · simp [hf]
  · intro uid d1 d2 h1 h2
    rw [(hname uid d1 h1).1, (hname uid d1 h1).2,
      (hname (uid + 1) d2 h2).1]
    exact hfbox uid (uid + 1) (by omega)

theorem claim_C8_witness :
    ((mkVarKey 5 ⟨none, none, none, none, none, []⟩).1.name = fboxName 5
      ∧ (mkVarKey 5 ⟨none, none, none, none, none, []⟩).2 = 5 + 1)
    ∧ (5 : Nat) ≤ (mkVarKey 5 ⟨none, none, none, none, none, []⟩).2
    ∧ fboxName 5 ≠ fboxName 6
    ∧ (mkVarKey 5 ⟨none, none, none, none, none, []⟩).1.name
        ≠ (mkVarKey ((mkVarKey 5 ⟨none, none, none, none, none, []⟩).2)
            ⟨some [], none, none, none, none, []⟩).1.name :=
  ⟨claim_C8.1 5 ⟨none, none, none, none, none, []⟩ rfl,
    claim_C8.2.1 5 ⟨none, none, none, none, none, []⟩,
    claim_C8.2.2.1 5 6 (by omega),
    claim_C8.2.2.2 5 ⟨none, none, none, none, none, []⟩
      ⟨some [], none, none, none, none, []⟩ rfl rfl⟩

/-! ### Claim C9: diff is a frame-preserving producer -/

theorem viewExps_set_varkeys (d : NomialData) (w : List VarKey) :
    (viewExps { d with varkeysC := some w }).1 = (viewExps d).1 := by
  cases hx : d.expsC <;> simp [viewExps, hx]

theorem viewCs_set_varkeys (d : NomialData) (w : List VarKey) :
    (viewCs { d with varkeysC := some w }).1 = (viewCs d).1 := by
  cases hx : d.csC <;> simp [viewCs, hx]

theorem viewHash_set_varkeys (d : NomialData) (w : List VarKey) :
    (viewHash { d with varkeysC := some w }).1 = (viewHash d).1 := by
  cases hx : d.hashvalueC <;> simp [viewHash, hx, ndHashOf]

theorem viewValues_set_varkeys (d : NomialData) (w : List VarKey) :
    (viewValues { d with varkeysC := some w }).1 = (viewValues d).1 := by
  cases hx : d.valuesC <;> simp [viewValues, hx]

theorem viewVarlocs_set_varkeys (d : NomialData) (w : List VarKey) :
    (viewVarlocs { d with varkeysC := some w }).1 = (viewVarlocs d).1 := by
  cases hv : d.varlocsC <;> cases hx : d.expsC <;>
    simp [viewVarlocs, viewExps, hv, hx]

/-- C9: a successful `diff` leaves the receiver's map, variable set, units and
positivity flag untouched, every derived view (exps, cs, varlocs, varkeys,
values, hash) returns the same content before and after the call, and the
result is a freshly constructed aggregate with every cache unrealized. -/
theorem claim_C9 (d : NomialData) (r : List Char) (dOut res : NomialData)
    (h : NomialData.diff d r = Except.ok (dOut, res)) :
    dOut.hmap = d.hmap ∧ dOut.vks = d.vks ∧ dOut.units = d.units
    ∧ dOut.any_nonpositive_cs = d.any_nonpositive_cs
    ∧ (viewExps dOut).1 = (viewExps d).1
    ∧ (viewCs dOut).1 = (viewCs d).1
    ∧ (viewVarlocs dOut).1 = (viewVarlocs d).1
    ∧ (viewVarkeys dOut).1 = (viewVarkeys d).1
    ∧ (viewValues dOut).1 = (viewValues d).1
    ∧ (viewHash dOut).1 = (viewHash d).1
    ∧ res.hashvalueC = none ∧ res.varlocsC = none ∧ res.expsC = none
    ∧ res.csC = none ∧ res.varkeysC = none ∧ res.valuesC = none := by
  cases hc : d.varkeysC with
  | some v =>
    simp only [NomialData.diff, viewVarkeys, hc] at h
    cases hr : resolve v r with
    | nil =>
      simp only [hr, Except.ok.injEq, Prod.mk.injEq] at h
      obtain ⟨h1, h2⟩ := h
      subst h1
      subst h2
      exact ⟨rfl, rfl, rfl, rfl, rfl, rfl, rfl, rfl, rfl, rfl,
        rfl, rfl, rfl, rfl, rfl, rfl⟩
    | cons k t =>
      cases t with
      | nil =>
        simp only [hr, Except.ok.injEq, Prod.mk.injEq] at h
        obtain ⟨h1, h2⟩ := h
        subst h1
        subst h2
        exact ⟨rfl, rfl, rfl, rfl, rfl, rfl, rfl, rfl, rfl, rfl,
          rfl, rfl, rfl, rfl, rfl, rfl⟩
      | cons k2 t2 =>
        simp only [hr] at h
        exact Except.noConfusion h
  | none =>
    simp only [NomialData.diff, viewVarkeys, hc] at h
    have hvk : (viewVarkeys { d with varkeysC := some d.vks }).1
        = (viewVarkeys d).1 := by
      simp only [viewVarkeys, hc]
    cases hr : resolve d.vks r with
    | nil =>
      simp only [hr, Except.ok.injEq, Prod.mk.injEq] at h
      obtain ⟨h1, h2⟩ := h
      subst h1
      subst h2
      exact ⟨rfl, rfl, rfl, rfl, viewExps_set_varkeys d d.vks,
        viewCs_set_varkeys d d.vks, viewVarlocs_set_varkeys d d.vks, hvk,
        viewValues_set_varkeys d d.vks, viewHash_set_varkeys d d.vks,
        rfl, rfl, rfl, rfl, rfl, rfl⟩
    | cons k t =>
      cases t with
      | nil =>
        simp only [hr, Except.ok.injEq, Prod.mk.injEq] at h
        obtain ⟨h1, h2⟩ := h
        subst h1
        subst h2
        exact ⟨rfl, rfl, rfl, rfl, viewExps_set_varkeys d d.vks,
          viewCs_set_varkeys d d.vks, viewVarlocs_set_varkeys d d.vks, hvk,
          viewValues_set_varkeys d d.vks, viewHash_set_varkeys d d.vks,
          rfl, rfl, rfl, rfl, rfl, rfl⟩
      | cons k2 t2 =>
        simp only [hr] at h
        exact Except.noConfusion h

theorem claim_C9_witness :
    ({ mkNomialData zeroHmap with varkeysC := some (vksOf zeroHmap.terms) }).hmap
        = (mkNomialData zeroHmap).hmap
    ∧ ({ mkNomialData zeroHmap with varkeysC := some (vksOf zeroHmap.terms) }).vks
        = (mkNomialData zeroHmap).vks
    ∧ ({ mkNomialData zeroHmap with varkeysC := some (vksOf zeroHmap.terms) }).units
        = (mkNomialData zeroHmap).units
    ∧ ({ mkNomialData zeroHmap with
          varkeysC := some (vksOf zeroHmap.terms) }).any_nonpositive_cs
        = (mkNomialData zeroHmap).any_nonpositive_cs
    ∧ (viewExps { mkNomialData zeroHmap with
          varkeysC := some (vksOf zeroHmap.terms) }).1
        = (viewExps (mkNomialData zeroHmap)).1
    ∧ (viewCs { mkNomialData zeroHmap with
          varkeysC := some (vksOf zeroHmap.terms) }).1
        = (viewCs (mkNomialData zeroHmap)).1
    ∧ (viewVarlocs { mkNomialData zeroHmap with
          varkeysC := some (vksOf zeroHmap.terms) }).1
        = (viewVarlocs (mkNomialData zeroHmap)).1
    ∧ (viewVarkeys { mkNomialData zeroHmap with
          varkeysC := some (vksOf zeroHmap.terms) }).1
        = (viewVarkeys (mkNomialData zeroHmap)).1
    ∧ (viewValues { mkNomialData zeroHmap with
          varkeysC := some (vksOf zeroHmap.terms) }).1
        = (viewValues (mkNomialData zeroHmap)).1
    ∧ (viewHash { mkNomialData zeroHmap with
          varkeysC := some (vksOf zeroHmap.terms) }).1
        = (viewHash (mkNomialData zeroHmap)).1
    ∧ (mkNomialData zeroHmap).hashvalueC = none
    ∧ (mkNomialData zeroHmap).varlocsC = none
    ∧ (mkNomialData zeroHmap).expsC = none
    ∧ (mkNomialData zeroHmap).csC = none
    ∧ (mkNomialData zeroHmap).varkeysC = none
    ∧ (mkNomialData zeroHmap).valuesC = none :=
  claim_C9 (mkNomialData zeroHmap) ['q']
    { mkNomialData zeroHmap with varkeysC := some (vksOf zeroHmap.terms) }
    (mkNomialData zeroHmap) rfl

/-! ### Claim C10: attribute access through `__getattr__` -/

/-- C10 (amended): Python attribute access on a constructed VarKey never
raises; for any attribute name that is neither set directly on the instance
nor found on the class, `__getattr__` returns the value stored in the
attribute bag `descr` when one is present and `None` otherwise. -/
theorem claim_C10 :
    (∀ (k : VarKey) (a : String), ∃ v, pyGetAttr k a = Except.ok v)
    ∧ (∀ (k : VarKey) (a : String), a ∉ instanceAttrs k → a ∉ classAttrs →
        pyGetAttr k a = Except.ok ((descrGet k a).getD PyVal.pnone)
        ∧ (descrGet k a = none → pyGetAttr k a = Except.ok PyVal.pnone)) := by
  constructor
  · intro k a
    rw [pyGetAttr]
    by_cases h1 : a ∈ instanceAttrs k
    · rw [if_pos h1]
      exact ⟨_, rfl⟩
    · rw [if_neg h1]
      by_cases h2 : a ∈ classAttrs
      · rw [if_pos h2]
        exact ⟨_, rfl⟩
      · rw [if_neg h2]
        exact ⟨_, rfl⟩
  · intro k a h1 h2
    have he : pyGetAttr k a = Except.ok ((descrGet k a).getD PyVal.pnone) := by
      rw [pyGetAttr, if_neg h1, if_neg h2]
    refine ⟨he, ?_⟩
    intro hd
    rw [he, hd]
    rfl

theorem claim_C10_witness :
    (∃ v, pyGetAttr keyX ("label" : String) = Except.ok v)
    ∧ (pyGetAttr keyX ("label" : String)
        = Except.ok ((descrGet keyX ("label" : String)).getD PyVal.pnone)
       ∧ (descrGet keyX ("label" : String) = none →
          pyGetAttr keyX ("label" : String) = Except.ok PyVal.pnone)) :=
  ⟨claim_C10.1 keyX ("label" : String),
    claim_C10.2 keyX ("label" : String) (by decide) (by decide)⟩

/-- C10 counterexample: `"subscripts"` is not set directly on the instance
and is absent from the attribute bag, yet reading it does not return `None`
(Python finds the class attribute before `__getattr__` runs), contradicting
the claim's universal quantification over attribute names. -/
theorem claim_C10_counterexample :
    (("subscripts" : String)) ∉ instanceAttrs keyX
    ∧ descrGet keyX ("subscripts" : String) = none
    ∧ pyGetAttr keyX ("subscripts" : String) ≠ Except.ok PyVal.pnone := by
  refine ⟨by decide, rfl, ?_⟩
  intro h
  have he : pyGetAttr keyX ("subscripts" : String)
      = Except.ok (PyVal.pstrs [("lineage").toList, ("idx").toList]) := rfl
  rw [he] at h
  injection h with h2
  exact PyVal.noConfusion h2

/-! ### Association-list lemmas: lookup, removal, dict equality -/

section AListLemmas

variable {κ ν : Type} [DecidableEq ν]
variable {kb : κ → κ → Bool}
variable (kbsymm : ∀ x y, kb x y = kb y x)
variable (kbtrans : ∀ x y z, kb x y = true → kb y z = true → kb x z = true)

set_option linter.unusedSectionVars false

theorem alookup_mem {l : List (κ × ν)} {k : κ} {v : ν}
    (h : alookup kb l k = some v) :
    ∃ p, p ∈ l ∧ kb p.1 k = true ∧ p.2 = v := by
  induction l with
  | nil => simp [alookup] at h
  | cons q t ih =>
    rw [alookup] at h
    by_cases hq : kb q.1 k = true
    · rw [if_pos hq] at h
      injection h with h
      exact ⟨q, List.mem_cons_self _ _, hq, h⟩
    · rw [if_neg hq] at h
      obtain ⟨p, hp, h1, h2⟩ := ih h
      exact ⟨p, List.mem_cons_of_mem _ hp, h1, h2⟩

include kbsymm kbtrans in
theorem alookup_congr {l : List (κ × ν)} {k1 k2 : κ} (hk : kb k1 k2 = true) :
    alookup kb l k1 = alookup kb l k2 := by
  induction l with
  | nil => rfl
  | cons q t ih =>
    rw [alookup, alookup]
    by_cases h1 : kb q.1 k1 = true
    · rw [if_pos h1, if_pos (kbtrans _ _ _ h1 hk)]
    · have h2 : ¬ kb q.1 k2 = true := by
        intro h2
        have hk21 : kb k2 k1 = true := by rw [kbsymm]; exact hk
        exact h1 (kbtrans _ _ _ h2 hk21)
      rw [if_neg h1, if_neg h2]
      exact ih

include kbsymm kbtrans in
theorem alookup_eq_of_mem {l : List (κ × ν)} {p : κ × ν} {k : κ}
    (hnd : nodupKeys kb l) (hp : p ∈ l) (hk : kb p.1 k = true) :
    alookup kb l k = some p.2 := by
  induction l with
  | nil => cases hp
  | cons q t ih =>
    rw [nodupKeys, List.pairwise_cons] at hnd
    rcases List.mem_cons.mp hp with h1 | h1
    · subst h1
      rw [alookup, if_pos hk]
    · by_cases hq : kb q.1 k = true
      · have hk2 : kb k p.1 = true := by rw [kbsymm]; exact hk
        have hqp : kb q.1 p.1 = true := kbtrans _ _ _ hq hk2
        have hf := hnd.1 p h1
        rw [hf] at hqp
        cases hqp
      · rw [alookup, if_neg hq]
        exact ih hnd.2 h1

theorem aremove_sublist (l : List (κ × ν)) (k : κ) :
    List.Sublist (aremove kb l k) l := by
  induction l with
  | nil => exact List.Sublist.slnil
  | cons q t ih =>
    rw [aremove]
    by_cases hq : kb q.1 k = true
    · rw [if_pos hq]
      exact List.sublist_cons_self q t
    · rw [if_neg hq]
      exact ih.cons₂ q

include kbsymm kbtrans in
theorem alookup_aremove {l : List (κ × ν)} {k k2 : κ} (hne : kb k2 k = false) :
    alookup kb (aremove kb l k) k2 = alookup kb l k2 := by
  induction l with
  | nil => rfl
  | cons q t ih =>
    by_cases hq : kb q.1 k = true
    · have hqk2 : ¬ kb q.1 k2 = true := by
        intro hbad
        have h1 : kb k2 q.1 = true := by rw [kbsymm]; exact hbad
        have h2 : kb k2 k = true := kbtrans _ _ _ h1 hq
        rw [hne] at h2
        cases h2
      rw [aremove, if_pos hq, alookup, if_neg hqk2]
    · rw [aremove, if_neg hq, alookup, alookup]
      by_cases hq2 : kb q.1 k2 = true
      · rw [if_pos hq2, if_pos hq2]
      · rw [if_neg hq2, if_neg hq2]
        exact ih

theorem remove_perm {l : List (κ × ν)} {k : κ} {v : ν}
    (h : alookup kb l k = some v) :
    ∃ q, q ∈ l ∧ kb q.1 k = true ∧ q.2 = v ∧ l.Perm (q :: aremove kb l k) := by
  induction l with
  | nil => simp [alookup] at h
  | cons p t ih =>
    by_cases hp : kb p.1 k = true
    · rw [alookup, if_pos hp] at h
      injection h with h
      refine ⟨p, List.mem_cons_self _ _, hp, h, ?_⟩
      rw [aremove, if_pos hp]
    · rw [alookup, if_neg hp] at h
      obtain ⟨q, hq, h1, h2, hperm⟩ := ih h
      refine ⟨q, List.mem_cons_of_mem _ hq, h1, h2, ?_⟩
      rw [aremove, if_neg hp]
      exact (hperm.cons p).trans (List.Perm.swap q p (aremove kb t k))

theorem dictBeq_iff {a b : List (κ × ν)} :
    dictBeq kb a b = true ↔
      ((∀ p ∈ a, alookup kb b p.1 = some p.2)
        ∧ (∀ q ∈ b, alookup kb a q.1 = some q.2)) := by
  simp [dictBeq, List.all_eq_true]

theorem dictBeq_nil {b : List (κ × ν)} (h : dictBeq kb [] b = true) : b = [] := by
  rw [dictBeq_iff] at h
  cases b with
  | nil => rfl
  | cons q t =>
    have := h.2 q (List.mem_cons_self _ _)
    simp [alookup] at this

include kbsymm kbtrans in
theorem dict_sum_eq (F : κ × ν → Nat) :
    ∀ (a b : List (κ × ν)),
      (∀ p ∈ a, ∀ q ∈ b, kb p.1 q.1 = true → p.2 = q.2 → F p = F q) →
      nodupKeys kb a → nodupKeys kb b → dictBeq kb a b = true →
      (a.map F).sum = (b.map F).sum := by
  intro a
  induction a with
  | nil =>
    intro b _ _ _ hd
    rw [dictBeq_nil hd]
  | cons p as ih =>
    intro b hF hnda hndb hd
    rw [dictBeq_iff] at hd
    have hlb : alookup kb b p.1 = some p.2 := hd.1 p (List.mem_cons_self _ _)
    obtain ⟨q, hqb, hq1, hq2, hperm⟩ := remove_perm hlb
    have hsum : (b.map F).sum = F q + ((aremove kb b p.1).map F).sum := by
      have := ((hperm.map F).sum_eq)
      simpa using this
    have hFq : F p = F q :=
      hF p (List.mem_cons_self _ _) q hqb (by rw [kbsymm]; exact hq1) hq2.symm
    have hndb2 : nodupKeys kb (q :: aremove kb b p.1) := by
      refine (hperm.pairwise_iff ?_).mp hndb
      intro x y hxy
      rw [kbsymm]
      exact hxy
    have hndb' : nodupKeys kb (aremove kb b p.1) :=
      (List.pairwise_cons.mp hndb2).2
    have hnda2 := List.pairwise_cons.mp hnda
    have hd' : dictBeq kb as (aremove kb b p.1) = true := by
      rw [dictBeq_iff]
      constructor
      · intro r hr
        have hrp : kb r.1 p.1 = false := by
          have := hnda2.1 r hr
          rw [kbsymm]
          exact this
        rw [alookup_aremove kbsymm kbtrans hrp]
        exact hd.1 r (List.mem_cons_of_mem _ hr)
      · intro s hs
        have hsb : s ∈ b := (aremove_sublist b p.1).subset hs
        have hla : alookup kb (p :: as) s.1 = some s.2 := hd.2 s hsb
        have hps : ¬ kb p.1 s.1 = true := by
          intro hbad
          have hqs := (List.pairwise_cons.mp hndb2).1 s hs
          have := kbtrans _ _ _ hq1 hbad
          rw [hqs] at this
          cases this
        rw [alookup, if_neg hps] at hla
        exact hla
    have ihh := ih (aremove kb b p.1)
      (fun r hr s hs => hF r (List.mem_cons_of_mem _ hr) s
        ((aremove_sublist b p.1).subset hs))
      hnda2.2 hndb' hd'
    rw [List.map_cons, List.sum_cons, hsum, hFq, ihh]

include kbsymm kbtrans in
theorem dictBeq_lookup_ext {a b : List (κ × ν)} (hd : dictBeq kb a b = true)
    (k : κ) : alookup kb a k = alookup kb b k := by
  rw [dictBeq_iff] at hd
  cases hla : alookup kb a k with
  | some v =>
    obtain ⟨p, hp, h1, h2⟩ := alookup_mem hla
    have hb := hd.1 p hp
    have h3 : alookup kb b p.1 = alookup kb b k := alookup_congr kbsymm kbtrans h1
    rw [← h3, hb, h2]
  | none =>
    cases hlb : alookup kb b k with
    | none => rfl
    | some w =>
      obtain ⟨q, hq, h1, h2⟩ := alookup_mem hlb
      have ha := hd.2 q hq
      have h3 : alookup kb a q.1 = alookup kb a k := alookup_congr kbsymm kbtrans h1
      rw [h3, hla] at ha
      cases ha

include kbsymm kbtrans in
theorem lookup_ext_dictBeq {a b : List (κ × ν)}
    (hra : ∀ p ∈ a, kb p.1 p.1 = true) (hrb : ∀ q ∈ b, kb q.1 q.1 = true)
    (hnda : nodupKeys kb a) (hndb : nodupKeys kb b)
    (h : ∀ k, alookup kb a k = alookup kb b k) : dictBeq kb a b = true := by
  rw [dictBeq_iff]
  constructor
  · intro p hp
    rw [← h p.1]
    exact alookup_eq_of_mem kbsymm kbtrans hnda hp (hra p hp)
  · intro q hq
    rw [h q.1]
    exact alookup_eq_of_mem kbsymm kbtrans hndb hq (hrb q hq)

include kbsymm kbtrans in
theorem perm_alookup {a b : List (κ × ν)} (hp : a.Perm b)
    (hnda : nodupKeys kb a) (k : κ) :
    alookup kb a k = alookup kb b k := by
  have hndb : nodupKeys kb b := by
    refine (hp.pairwise_iff ?_).mp hnda
    intro x y hxy
    rw [kbsymm]
    exact hxy
  cases hla : alookup kb a k with
  | some v =>
    obtain ⟨p, hpm, h1, h2⟩ := alookup_mem hla
    have := alookup_eq_of_mem kbsymm kbtrans hndb (hp.subset hpm) h1
    rw [this, h2]
  | none =>
    cases hlb : alookup kb b k with
    | none => rfl
    | some w =>
      obtain ⟨q, hqm, h1, h2⟩ := alookup_mem hlb
      have := alookup_eq_of_mem kbsymm kbtrans hnda (hp.symm.subset hqm) h1
      rw [hla] at this
      cases this

include kbsymm kbtrans in
theorem dictBeq_trans {a b c : List (κ × ν)}
    (h1 : dictBeq kb a b = true) (h2 : dictBeq kb b c = true) :
    dictBeq kb a c = true := by
  rw [dictBeq_iff] at h1 h2 ⊢
  constructor
  · intro p hp
    obtain ⟨q, hq, hk, hv⟩ := alookup_mem (h1.1 p hp)
    have hlc := h2.1 q hq
    have hcongr : alookup kb c q.1 = alookup kb c p.1 :=
      alookup_congr kbsymm kbtrans hk
    rw [← hcongr, hlc, hv]
  · intro s hs
    obtain ⟨q, hq, hk, hv⟩ := alookup_mem (h2.2 s hs)
    have hla := h1.2 q hq
    have hcongr : alookup kb a q.1 = alookup kb a s.1 :=
      alookup_congr kbsymm kbtrans hk
    rw [← hcongr, hla, hv]

end AListLemmas

theorem dictBeq_comm {κ ν : Type} [DecidableEq ν] (kb : κ → κ → Bool)
    (a b : List (κ × ν)) : dictBeq kb a b = dictBeq kb b a := by
  rw [dictBeq, dictBeq, Bool.and_comm]

/-! ### Key-equivalence instances -/

theorem vkBEq_symm (a b : VarKey) : vkBEq a b = vkBEq b a := by
  simp [vkBEq, eq_comm]

theorem vkBEq_trans (a b c : VarKey) :
    vkBEq a b = true → vkBEq b c = true → vkBEq a c = true := by
  simp only [vkBEq, decide_eq_true_eq]
  intro h1 h2
  rw [h1, h2]

theorem vkBEq_refl (a : VarKey) : vkBEq a a = true := by
  simp [vkBEq]

theorem expKb_symm (a b : ExpVec) : expKb a b = expKb b a :=
  dictBeq_comm vkBEq a b

theorem expKb_trans (a b c : ExpVec) :
    expKb a b = true → expKb b c = true → expKb a c = true :=
  fun h1 h2 => dictBeq_trans vkBEq_symm vkBEq_trans h1 h2

theorem expKb_refl {e : ExpVec} (h : nodupKeys vkBEq e) : expKb e e = true :=
  lookup_ext_dictBeq vkBEq_symm vkBEq_trans
    (fun p _ => vkBEq_refl p.1) (fun q _ => vkBEq_refl q.1) h h (fun _ => rfl)

/-! ### Claim C4: NomialData equality is content equality -/

theorem ndEq_unfold (m1 m2 : NomialMap) :
    ndEq (mkNomialData m1) (mkNomialData m2)
      = (dictBeq expKb m1.terms m2.terms && decide (m1.units = m2.units)) := rfl

/-- C4: two aggregates are equal exactly when their underlying maps bind the
same exponent vectors to the same coefficients and their units are identical;
in particular the equality is insensitive to term enumeration order, so the
same term content inserted in a different order still compares equal. -/
theorem claim_C4 :
    (∀ m1 m2 : NomialMap,
        nodupKeys expKb m1.terms → nodupKeys expKb m2.terms →
        (∀ t ∈ m1.terms, nodupKeys vkBEq t.1) →
        (∀ t ∈ m2.terms, nodupKeys vkBEq t.1) →
        (ndEq (mkNomialData m1) (mkNomialData m2) = true ↔
          ((∀ e, alookup expKb m1.terms e = alookup expKb m2.terms e)
            ∧ m1.units = m2.units)))
    ∧ (∀ (t1 t2 : List (ExpVec × ℚ)) (u : Option (List Char)),
        t1.Perm t2 → nodupKeys expKb t1 → (∀ t ∈ t1, nodupKeys vkBEq t.1) →
        ndEq (mkNomialData ⟨t1, u⟩) (mkNomialData ⟨t2, u⟩) = true) := by
  constructor
  · intro m1 m2 hnd1 hnd2 hexp1 hexp2
    rw [ndEq_unfold]
    constructor
    · intro h
      rw [Bool.and_eq_true, decide_eq_true_eq] at h
      exact ⟨fun e => dictBeq_lookup_ext expKb_symm expKb_trans h.1 e, h.2⟩
    · intro h
      rw [Bool.and_eq_true, decide_eq_true_eq]
      refine ⟨?_, h.2⟩
      exact lookup_ext_dictBeq expKb_symm expKb_trans
        (fun p hp => expKb_refl (hexp1 p hp))
        (fun q hq => expKb_refl (hexp2 q hq)) hnd1 hnd2 h.1
  · intro t1 t2 u hperm hnd hexps
    show (dictBeq expKb t1 t2 && decide (u = u)) = true
    rw [Bool.and_eq_true, decide_eq_true_eq]
    refine ⟨?_, rfl⟩
    have hnd2 : nodupKeys expKb t2 := by
      refine (hperm.pairwise_iff ?_).mp hnd
      intro x y hxy
      rw [expKb_symm]
      exact hxy
    exact lookup_ext_dictBeq expKb_symm expKb_trans
      (fun p hp => expKb_refl (hexps p hp))
      (fun q hq => expKb_refl (hexps q (hperm.symm.subset hq)))
      hnd hnd2 (perm_alookup expKb_symm expKb_trans hperm hnd)

theorem claim_C4_witness :
    ndEq (mkNomialData ⟨xyMap.terms, none⟩) (mkNomialData ⟨yxMap.terms, none⟩)
      = true := by
  have hperm : xyMap.terms.Perm yxMap.terms :=
    List.Perm.swap ([(keyY, 2)], (-1 : ℚ)) ([(keyX, 1)], (3 : ℚ)) []
  have hnd : nodupKeys expKb xyMap.terms := by
    rw [nodupKeys]
    refine List.pairwise_cons.mpr ⟨?_, List.pairwise_singleton _ _⟩
    intro q hq
    rw [List.mem_singleton] at hq
    subst hq
    decide
  have hexps : ∀ t ∈ xyMap.terms, nodupKeys vkBEq t.1 := by
    intro t ht
    rcases List.mem_cons.mp ht with h | h
    · subst h
      exact List.pairwise_singleton _ _
    · rw [List.mem_singleton] at h
      subst h
      exact List.pairwise_singleton _ _
  exact claim_C4.2 xyMap.terms yxMap.terms none hperm hnd hexps

/-! ### Claim C5: hash agrees with equality and is memoized -/

/-- C5: equal aggregates (same map content, same units) have equal hashes;
the hash combines the map content hash with a hash of the unit string, is
insensitive to term construction order, and repeated calls return the cached
value of the first call. -/
theorem claim_C5 :
    (∀ m1 m2 : NomialMap, wfMap m1 → wfMap m2 →
        ndEq (mkNomialData m1) (mkNomialData m2) = true →
        (viewHash (mkNomialData m1)).1 = (viewHash (mkNomialData m2)).1)
    ∧ (∀ d : NomialData, (viewHash ((viewHash d).2)).1 = (viewHash d).1)
    ∧ (∀ (t1 t2 : List (ExpVec × ℚ)) (u : Option (List Char)), t1.Perm t2 →
        (viewHash (mkNomialData ⟨t1, u⟩)).1 = (viewHash (mkNomialData ⟨t2, u⟩)).1) := by
  refine ⟨?_, ?_, ?_⟩
  · intro m1 m2 hwf1 hwf2 h
    rw [ndEq_unfold, Bool.and_eq_true, decide_eq_true_eq] at h
    have hview : ∀ m : NomialMap, (viewHash (mkNomialData m)).1
        = mapContentHash m + charsHash (pyStrUnits m.units) := fun m => rfl
    rw [hview m1, hview m2, h.2]
    have hmap : mapContentHash m1 = mapContentHash m2 := by
      rw [mapContentHash, mapContentHash]
      refine dict_sum_eq expKb_symm expKb_trans _ m1.terms m2.terms ?_
        hwf1.1 hwf2.1 h.1
      intro p hp q hq hk hv
      have hexp : expHash p.1 = expHash q.1 := by
        rw [expHash, expHash]
        refine dict_sum_eq vkBEq_symm vkBEq_trans _ p.1 q.1 ?_
          (hwf1.2 p hp) (hwf2.2 q hq) hk
        intro r hr s hs hrs hv2
        have he : eqstr r.1 = eqstr s.1 := by
          rw [vkBEq, decide_eq_true_eq] at hrs
          exact hrs
        rw [vkHash, vkHash, he, hv2]
      rw [hexp, hv]
    rw [hmap]
  · intro d
    cases hc : d.hashvalueC with
    | some h => simp [viewHash, hc]
    | none => simp [viewHash, hc]
  · intro t1 t2 u hperm
    have hview : ∀ t : List (ExpVec × ℚ),
        (viewHash (mkNomialData ⟨t, u⟩)).1
          = (t.map (fun tt => mix2 (expHash tt.1) (ratHash tt.2))).sum
            + charsHash (pyStrUnits u) := fun t => rfl
    rw [hview t1, hview t2,
      (hperm.map (fun tt => mix2 (expHash tt.1) (ratHash tt.2))).sum_eq]

theorem claim_C5_witness :
    (viewHash (mkNomialData ⟨xyMap.terms, none⟩)).1
      = (viewHash (mkNomialData ⟨yxMap.terms, none⟩)).1 := by
  have hperm : xyMap.terms.Perm yxMap.terms :=
    List.Perm.swap ([(keyY, 2)], (-1 : ℚ)) ([(keyX, 1)], (3 : ℚ)) []
  exact claim_C5.2.2 xyMap.terms yxMap.terms none hperm

/-! ### Prefix-determinism of the lineage repr -/

theorem pairSplit {p1 p2 : List Char × Nat} {r1 r2 : List Char}
    (w1 : wfName p1.1) (w2 : wfName p2.1)
    (h : reprPair p1 ++ r1 = reprPair p2 ++ r2) : p1 = p2 ∧ r1 = r2 := by
  rw [reprPair, reprPair] at h
  simp only [List.cons_append, List.append_assoc, List.cons.injEq, true_and] at h
  obtain ⟨hn, ht⟩ := marker_split qc p1.1 p2.1 _ _ w1.1 w2.1 h
  simp only [List.cons.injEq, true_and] at ht
  have hd := marker_split ')' (natChars p1.2) (natChars p2.2) r1 r2
    (fun hm => (natChars_notMem _ _ hm).1 rfl)
    (fun hm => (natChars_notMem _ _ hm).1 rfl)
    (by simpa using ht)
  exact ⟨Prod.ext hn (natChars_inj _ _ hd.1), hd.2⟩

theorem bodySplit :
    ∀ (l1 l2 : List (List Char × Nat)) (r1 r2 : List Char),
      l1 ≠ [] → l2 ≠ [] → (∀ p ∈ l1, wfName p.1) → (∀ p ∈ l2, wfName p.1) →
      bodyMulti l1 ++ ')' :: r1 = bodyMulti l2 ++ ')' :: r2 →
      l1 = l2 ∧ r1 = r2 := by
  intro l1
  induction l1 with
  | nil => intro l2 r1 r2 h1; exact absurd rfl h1
  | cons p t ih =>
    intro l2 r1 r2 _ hl2 w1 w2 h
    cases l2 with
    | nil => exact absurd rfl hl2
    | cons q s =>
      have wp := w1 p (List.mem_cons_self _ _)
      have wq := w2 q (List.mem_cons_self _ _)
      cases t with
      | nil =>
        cases s with
        | nil =>
          rw [show bodyMulti [p] = reprPair p from rfl,
            show bodyMulti [q] = reprPair q from rfl] at h
          obtain ⟨hp, hr⟩ := pairSplit wp wq h
          injection hr with _ hr
          exact ⟨by rw [hp], hr⟩
        | cons q2 s2 =>
          rw [show bodyMulti [p] = reprPair p from rfl,
            show bodyMulti (q :: q2 :: s2)
              = reprPair q ++ ',' :: ' ' :: bodyMulti (q2 :: s2) from rfl] at h
          rw [List.append_assoc] at h
          obtain ⟨_, hr⟩ := pairSplit wp wq h
          injection hr with hbad
          exact absurd hbad (by decide)
      | cons p2 t2 =>
        cases s with
        | nil =>
          rw [show bodyMulti [q] = reprPair q from rfl,
            show bodyMulti (p :: p2 :: t2)
              = reprPair p ++ ',' :: ' ' :: bodyMulti (p2 :: t2) from rfl] at h
          rw [List.append_assoc] at h
          obtain ⟨_, hr⟩ := pairSplit wp wq h
          injection hr with hbad
          exact absurd hbad (by decide)
        | cons q2 s2 =>
          rw [show bodyMulti (p :: p2 :: t2)
              = reprPair p ++ ',' :: ' ' :: bodyMulti (p2 :: t2) from rfl,
            show bodyMulti (q :: q2 :: s2)
              = reprPair q ++ ',' :: ' ' :: bodyMulti (q2 :: s2) from rfl] at h
          rw [List.append_assoc, List.append_assoc] at h
          obtain ⟨hp, hr⟩ := pairSplit wp wq h
          injection hr with _ hr
          injection hr with _ hr
          obtain ⟨he, hre⟩ := ih (q2 :: s2) r1 r2 (by simp) (by simp)
            (fun x hx => w1 x (List.mem_cons_of_mem _ hx))
            (fun x hx => w2 x (List.mem_cons_of_mem _ hx)) hr
          exact ⟨by rw [hp, he], hre⟩

theorem tupSplit {l1 l2 : List (List Char × Nat)} {r1 r2 : List Char}
    (w1 : ∀ p ∈ l1, wfName p.1) (w2 : ∀ p ∈ l2, wfName p.1)
    (h : reprTup l1 ++ r1 = reprTup l2 ++ r2) : l1 = l2 ∧ r1 = r2 := by
  have pairHead : ∀ p : List Char × Nat, ∃ T, reprPair p = '(' :: T :=
    fun p => ⟨_, rfl⟩
  cases l1 with
  | nil =>
    cases l2 with
    | nil =>
      rw [show reprTup ([] : List (List Char × Nat)) = ['(', ')'] from rfl] at h
      simp only [List.cons_append, List.nil_append, List.cons.injEq, true_and] at h
      exact ⟨rfl, h⟩
    | cons q s =>
      exfalso
      cases s with
      | nil =>
        rw [show reprTup ([] : List (List Char × Nat)) = ['(', ')'] from rfl,
          show reprTup [q] = '(' :: (reprPair q ++ [',', ')']) from rfl] at h
        obtain ⟨T, hT⟩ := pairHead q
        rw [hT] at h
        simp only [List.cons_append, List.nil_append, List.cons.injEq] at h
        exact absurd h.2.1 (by decide)
      | cons q2 s2 =>
        rw [show reprTup ([] : List (List Char × Nat)) = ['(', ')'] from rfl,
          show reprTup (q :: q2 :: s2)
            = '(' :: (bodyMulti (q :: q2 :: s2) ++ [')']) from rfl,
          show bodyMulti (q :: q2 :: s2)
            = reprPair q ++ ',' :: ' ' :: bodyMulti (q2 :: s2) from rfl] at h
        obtain ⟨T, hT⟩ := pairHead q
        rw [hT] at h
        simp only [List.cons_append, List.nil_append, List.append_assoc,
          List.cons.injEq] at h
        exact absurd h.2.1 (by decide)
  | cons p t =>
    cases l2 with
    | nil =>
      exfalso
      cases t with
      | nil =>
        rw [show reprTup ([] : List (List Char × Nat)) = ['(', ')'] from rfl,
          show reprTup [p] = '(' :: (reprPair p ++ [',', ')']) from rfl] at h
        obtain ⟨T, hT⟩ := pairHead p
        rw [hT] at h
        simp only [List.cons_append, List.nil_append, List.cons.injEq] at h
        exact absurd h.2.1 (by decide)
      | cons p2 t2 =>
        rw [show reprTup ([] : List (List Char × Nat)) = ['(', ')'] from rfl,
          show reprTup (p :: p2 :: t2)
            = '(' :: (bodyMulti (p :: p2 :: t2) ++ [')']) from rfl,
          show bodyMulti (p :: p2 :: t2)
            = reprPair p ++ ',' :: ' ' :: bodyMulti (p2 :: t2) from rfl] at h
        obtain ⟨T, hT⟩ := pairHead p
        rw [hT] at h
        simp only [List.cons_append, List.nil_append, List.append_assoc,
          List.cons.injEq] at h
        exact absurd h.2.1 (by decide)
    | cons q s =>
      have wp := w1 p (List.mem_cons_self _ _)
      have wq := w2 q (List.mem_cons_self _ _)
      cases t with
      | nil =>
        cases s with
        | nil =>
          rw [show reprTup [p] = '(' :: (reprPair p ++ [',', ')']) from rfl,
            show reprTup [q] = '(' :: (reprPair q ++ [',', ')']) from rfl] at h
          simp only [List.cons_append, List.append_assoc, List.cons.injEq,
            true_and] at h
          obtain ⟨hp, hr⟩ := pairSplit wp wq (by simpa using h)
          injection hr with _ hr
          injection hr with _ hr
          exact ⟨by rw [hp], hr⟩
        | cons q2 s2 =>
          exfalso
          rw [show reprTup [p] = '(' :: (reprPair p ++ [',', ')']) from rfl,
            show reprTup (q :: q2 :: s2)
              = '(' :: (bodyMulti (q :: q2 :: s2) ++ [')']) from rfl,
            show bodyMulti (q :: q2 :: s2)
              = reprPair q ++ ',' :: ' ' :: bodyMulti (q2 :: s2) from rfl] at h
          simp only [List.cons_append, List.append_assoc, List.cons.injEq,
            true_and] at h
          obtain ⟨_, hr⟩ := pairSplit wp wq (by simpa using h)
          injection hr with _ hr
          injection hr with hbad
          exact absurd hbad (by decide)
      | cons p2 t2 =>
        cases s with
        | nil =>
          exfalso
          rw [show reprTup [q] = '(' :: (reprPair q ++ [',', ')']) from rfl,
            show reprTup (p :: p2 :: t2)
              = '(' :: (bodyMulti (p :: p2 :: t2) ++ [')']) from rfl,
            show bodyMulti (p :: p2 :: t2)
              = reprPair p ++ ',' :: ' ' :: bodyMulti (p2 :: t2) from rfl] at h
          simp only [List.cons_append, List.append_assoc, List.cons.injEq,
            true_and] at h
          obtain ⟨_, hr⟩ := pairSplit wp wq (by simpa using h)
          injection hr with _ hr
          injection hr with hbad
          exact absurd hbad (by decide)
        | cons q2 s2 =>
          rw [show reprTup (p :: p2 :: t2)
              = '(' :: (bodyMulti (p :: p2 :: t2) ++ [')']) from rfl,
            show reprTup (q :: q2 :: s2)
              = '(' :: (bodyMulti (q :: q2 :: s2) ++ [')']) from rfl] at h
          simp only [List.cons_append, List.append_assoc, List.cons.injEq,
            true_and] at h
          exact bodySplit (p :: p2 :: t2) (q :: q2 :: s2) r1 r2
            (by simp) (by simp) w1 w2 (by simpa using h)

theorem linSplit {o1 o2 : Option (List (List Char × Nat))} {r1 r2 : List Char}
    (w1 : wfLineage o1) (w2 : wfLineage o2)
    (h : reprLin o1 ++ r1 = reprLin o2 ++ r2) : o1 = o2 ∧ r1 = r2 := by
  cases o1 with
  | none =>
    cases o2 with
    | none =>
      rw [show reprLin none = ("None").toList from rfl] at h
      simp only [show ("None").toList = ['N', 'o', 'n', 'e'] from rfl,
        List.cons_append, List.nil_append, List.cons.injEq, true_and] at h
      exact ⟨rfl, h⟩
    | some l2 =>
      exfalso
      rw [show reprLin none = ("None").toList from rfl,
        show reprLin (some l2) = reprTup l2 from rfl] at h
      cases l2 with
      | nil =>
        rw [show reprTup ([] : List (List Char × Nat)) = ['(', ')'] from rfl] at h
        simp only [show ("None").toList = ['N', 'o', 'n', 'e'] from rfl,
          List.cons_append, List.nil_append, List.cons.injEq] at h
        exact absurd h.1 (by decide)
      | cons q s =>
        have hhead : ∃ T, reprTup (q :: s) = '(' :: T := by
          cases s with
          | nil => exact ⟨_, rfl⟩
          | cons q2 s2 => exact ⟨_, rfl⟩
        obtain ⟨T, hT⟩ := hhead
        rw [hT] at h
        simp only [show ("None").toList = ['N', 'o', 'n', 'e'] from rfl,
          List.cons_append, List.nil_append, List.cons.injEq] at h
        exact absurd h.1 (by decide)
  | some l1 =>
    cases o2 with
    | none =>
      exfalso
      rw [show reprLin none = ("None").toList from rfl,
        show reprLin (some l1) = reprTup l1 from rfl] at h
      cases l1 with
      | nil =>
        rw [show reprTup ([] : List (List Char × Nat)) = ['(', ')'] from rfl] at h
        simp only [show ("None").toList = ['N', 'o', 'n', 'e'] from rfl,
          List.cons_append, List.nil_append, List.cons.injEq] at h
        exact absurd h.1 (by decide)
      | cons q s =>
        have hhead : ∃ T, reprTup (q :: s) = '(' :: T := by
          cases s with
          | nil => exact ⟨_, rfl⟩
          | cons q2 s2 => exact ⟨_, rfl⟩
        obtain ⟨T, hT⟩ := hhead
        rw [hT] at h
        simp only [show ("None").toList = ['N', 'o', 'n', 'e'] from rfl,
          List.cons_append, List.nil_append, List.cons.injEq] at h
        exact absurd h.1 (by decide)
    | some l2 =>
      rw [show reprLin (some l1) = reprTup l1 from rfl,
        show reprLin (some l2) = reprTup l2 from rfl] at h
      obtain ⟨he, hr⟩ := tupSplit w1 w2 h
      exact ⟨by rw [he], hr⟩

/-! ### Paren-freeness of the rendered subscripts -/

theorem joinSep_noParen :
    ∀ xs : List (List Char), (∀ s ∈ xs, '(' ∉ s) → '(' ∉ joinSep xs := by
  intro xs
  induction xs with
  | nil =>
    intro _ h
    simp [joinSep] at h
  | cons s ss ih =>
    intro hall
    cases ss with
    | nil =>
      rw [show joinSep [s] = s from rfl]
      exact hall s (List.mem_cons_self _ _)
    | cons s2 ss2 =>
      rw [show joinSep (s :: s2 :: ss2) = s ++ '.' :: joinSep (s2 :: ss2) from rfl]
      intro hmem
      rcases List.mem_append.mp hmem with h1 | h1
      · exact hall s (List.mem_cons_self _ _) h1
      · rcases List.mem_cons.mp h1 with h2 | h2
        · exact absurd h2 (by decide)
        · exact ih (fun x hx => hall x (List.mem_cons_of_mem _ hx)) h2

theorem lineagestr_noParen (l : List (List Char × Nat))
    (w : ∀ p ∈ l, wfName p.1) : '(' ∉ lineagestr l false := by
  rw [lineagestr]
  apply joinSep_noParen
  intro s hs
  obtain ⟨p, hp, hps⟩ := List.mem_map.mp hs
  simp only [Bool.false_and, Bool.false_eq_true, if_false] at hps
  rw [← hps]
  exact (w p hp).2

theorem linPart_noParen (o : Option (List (List Char × Nat)))
    (w : wfLineage o) : '(' ∉ linPart o false := by
  cases o with
  | none => simp [linPart]
  | some l =>
    cases l with
    | nil => simp [linPart]
    | cons p ps =>
      rw [show linPart (some (p :: ps)) false
          = '_' :: lineagestr (p :: ps) false from rfl]
      intro hmem
      rcases List.mem_cons.mp hmem with h1 | h1
      · exact absurd h1 (by decide)
      · exact lineagestr_noParen (p :: ps) w h1

theorem reprTup_cons_head (p : List Char × Nat) (ps : List (List Char × Nat)) :
    ∃ S, reprTup (p :: ps) = '(' :: S := by
  cases ps with
  | nil => exact ⟨_, rfl⟩
  | cons q qs => exact ⟨_, rfl⟩

theorem reprNatTup_cons_head (n : Nat) (ns : List Nat) :
    ∃ T, reprNatTup (n :: ns) = '(' :: T := by
  cases ns with
  | nil => exact ⟨_, rfl⟩
  | cons m ms => exact ⟨_, rfl⟩

/-! ### The identity string determines lineage and unit representation -/

theorem eqstr_decomp (k : VarKey) :
    eqstr k = k.name ++ (linPart k.lineage false
      ++ (idxPart k.idx ++ (reprLin k.lineage ++ k.unitrepr))) := by
  rw [eqstr, cleanstr, str_without]
  simp [List.append_assoc]

theorem linPart_reprLin_split {l1 l2 : Option (List (List Char × Nat))}
    {u1 u2 : List Char} (w1 : wfLineage l1) (w2 : wfLineage l2)
    (h : linPart l1 false ++ (reprLin l1 ++ u1)
       = linPart l2 false ++ (reprLin l2 ++ u2)) :
    l1 = l2 ∧ u1 = u2 := by
  have falsy1 : ∀ (o : Option (List (List Char × Nat))),
      (o = none ∨ o = some []) → linPart o false = [] := by
    intro o ho
    rcases ho with ho | ho <;> rw [ho] <;> rfl
  have headN : reprLin none ++ u2 = 'N' :: (['o', 'n', 'e'] ++ u2) := rfl
  have headE : reprLin (some []) ++ u2 = '(' :: (')' :: u2) := rfl
  rcases h1 : l1 with _ | ll1
  · rcases h2 : l2 with _ | ll2
    · subst h1; subst h2
      simp only [falsy1 _ (Or.inl rfl), List.nil_append] at h
      exact linSplit w1 w2 h
    · subst h1; subst h2
      cases ll2 with
      | nil =>
        simp only [falsy1 _ (Or.inl rfl), falsy1 _ (Or.inr rfl),
          List.nil_append] at h
        exact linSplit w1 w2 h
      | cons q qs =>
        exfalso
        rw [falsy1 _ (Or.inl rfl), List.nil_append,
          show linPart (some (q :: qs)) false
            = '_' :: lineagestr (q :: qs) false from rfl] at h
        rw [show (reprLin none ++ u1 : List Char)
            = 'N' :: (['o', 'n', 'e'] ++ u1) from rfl] at h
        rw [List.cons_append] at h
        injection h with hbad
        exact absurd hbad (by decide)
  · rcases h2 : l2 with _ | ll2
    · subst h1; subst h2
      cases ll1 with
      | nil =>
        simp only [falsy1 _ (Or.inl rfl), falsy1 _ (Or.inr rfl),
          List.nil_append] at h
        exact linSplit w1 w2 h
      | cons p ps =>
        exfalso
        rw [falsy1 _ (Or.inl rfl), List.nil_append,
          show linPart (some (p :: ps)) false
            = '_' :: lineagestr (p :: ps) false from rfl] at h
        rw [show (reprLin none ++ u2 : List Char)
            = 'N' :: (['o', 'n', 'e'] ++ u2) from rfl] at h
        rw [List.cons_append] at h
        injection h with hbad
        exact absurd hbad (by decide)
    · subst h1; subst h2
      cases ll1 with
      | nil =>
        cases ll2 with
        | nil =>
          simp only [falsy1 _ (Or.inr rfl), List.nil_append] at h
          exact linSplit w1 w2 h
        | cons q qs =>
          exfalso
          rw [falsy1 _ (Or.inr rfl), List.nil_append,
            show linPart (some (q :: qs)) false
              = '_' :: lineagestr (q :: qs) false from rfl] at h
          rw [show (reprLin (some []) ++ u1 : List Char)
              = '(' :: (')' :: u1) from rfl] at h
          rw [List.cons_append] at h
          injection h with hbad
          exact absurd hbad (by decide)
      | cons p ps =>
        cases ll2 with
        | nil =>
          exfalso
          rw [falsy1 _ (Or.inr rfl), List.nil_append,
            show linPart (some (p :: ps)) false
              = '_' :: lineagestr (p :: ps) false from rfl] at h
          rw [show (reprLin (some []) ++ u2 : List Char)
              = '(' :: (')' :: u2) from rfl] at h
          rw [List.cons_append] at h
          injection h with hbad
          exact absurd hbad (by decide)
        | cons q qs =>
          rw [show linPart (some (p :: ps)) false
              = '_' :: lineagestr (p :: ps) false from rfl,
            show linPart (some (q :: qs)) false
              = '_' :: lineagestr (q :: qs) false from rfl,
            List.cons_append, List.cons_append] at h
          injection h with _ h
          obtain ⟨S1, hS1⟩ := reprTup_cons_head p ps
          obtain ⟨S2, hS2⟩ := reprTup_cons_head q qs
          rw [show (reprLin (some (p :: ps)) : List Char) = reprTup (p :: ps)
              from rfl, hS1] at h
          rw [show (reprLin (some (q :: qs)) : List Char) = reprTup (q :: qs)
              from rfl, hS2] at h
          rw [List.cons_append, List.cons_append] at h
          obtain ⟨hL, hS⟩ := marker_split '(' _ _ _ _
            (lineagestr_noParen (p :: ps) w1) (lineagestr_noParen (q :: qs) w2) h
          have hre : reprLin (some (p :: ps)) ++ u1
              = reprLin (some (q :: qs)) ++ u2 := by
            rw [show (reprLin (some (p :: ps)) : List Char) = reprTup (p :: ps)
                from rfl, hS1,
              show (reprLin (some (q :: qs)) : List Char) = reprTup (q :: qs)
                from rfl, hS2, List.cons_append, List.cons_append, hS]
          exact linSplit w1 w2 hre

theorem eqstr_inj_core {nm : List Char} {l1 l2 : Option (List (List Char × Nat))}
    {ix : Option (List Nat)} {u1 u2 : List Char}
    (w1 : wfLineage l1) (w2 : wfLineage l2)
    (h : nm ++ (linPart l1 false ++ (idxPart ix ++ (reprLin l1 ++ u1)))
       = nm ++ (linPart l2 false ++ (idxPart ix ++ (reprLin l2 ++ u2)))) :
    l1 = l2 ∧ u1 = u2 := by
  have h1 := List.append_cancel_left h
  cases ix with
  | none =>
    rw [show idxPart none = [] from rfl, List.nil_append, List.nil_append] at h1
    exact linPart_reprLin_split w1 w2 h1
  | some li =>
    cases li with
    | nil =>
      rw [show idxPart (some []) = [] from rfl, List.nil_append,
        List.nil_append] at h1
      exact linPart_reprLin_split w1 w2 h1
    | cons n ns =>
      obtain ⟨T, hT⟩ := reprNatTup_cons_head n ns
      rw [show idxPart (some (n :: ns)) = '_' :: reprNatTup (n :: ns) from rfl,
        hT] at h1
      have reassoc : ∀ (A Z : List Char),
          A ++ ('_' :: '(' :: Z) = (A ++ ['_']) ++ '(' :: Z := by
        intro A Z
        simp
      rw [show ('_' :: '(' :: T) ++ (reprLin l1 ++ u1)
          = '_' :: '(' :: (T ++ (reprLin l1 ++ u1)) from rfl] at h1
      rw [show ('_' :: '(' :: T) ++ (reprLin l2 ++ u2)
          = '_' :: '(' :: (T ++ (reprLin l2 ++ u2)) from rfl] at h1
      rw [reassoc, reassoc] at h1
      have noP : ∀ (o : Option (List (List Char × Nat))), wfLineage o →
          '(' ∉ linPart o false ++ ['_'] := by
        intro o wo hmem
        rcases List.mem_append.mp hmem with hm | hm
        · exact linPart_noParen o wo hm
        · rcases List.mem_cons.mp hm with hm2 | hm2
          · exact absurd hm2 (by decide)
          · cases hm2
      obtain ⟨_, hrest⟩ := marker_split '(' _ _ _ _ (noP l1 w1) (noP l2 w2) h1
      have h2 := List.append_cancel_left hrest
      exact linSplit w1 w2 h2

/-! ### Claim C3: VarKey identity -/

/-- C3: VarKey equality holds exactly when the identity strings `eqstr`
match; the hash is computed from `eqstr`, so equal keys have equal hashes;
and two constructed keys sharing the same (nonempty) supplied name and the
same index but differing in lineage or in units (with wellformed model
names) are unequal. -/
theorem claim_C3 :
    (∀ a b : VarKey, vkBEq a b = true ↔ eqstr a = eqstr b)
    ∧ (∀ a b : VarKey, eqstr a = eqstr b → vkHash a = vkHash b)
    ∧ (∀ (uid1 uid2 : Nat) (d1 d2 : DescrIn) (nm : List Char),
        wfLineage d1.lineage → wfLineage d2.lineage →
        d1.name = some nm → d2.name = some nm → nm ≠ [] →
        d1.idx = d2.idx →
        ((mkVarKey uid1 d1).1.lineage ≠ (mkVarKey uid2 d2).1.lineage
          ∨ (mkVarKey uid1 d1).1.units ≠ (mkVarKey uid2 d2).1.units) →
        vkBEq (mkVarKey uid1 d1).1 (mkVarKey uid2 d2).1 = false) := by
  refine ⟨?_, ?_, ?_⟩
  · intro a b
    simp [vkBEq]
  · intro a b h
    rw [vkHash, vkHash, h]
  · intro uid1 uid2 d1 d2 nm w1 w2 hn1 hn2 hnm hidx hdisj
    have f1 := mkVarKey_fields uid1 d1
    have f2 := mkVarKey_fields uid2 d2
    rw [vkBEq, decide_eq_false_iff_not]
    intro heq
    have hname1 : (mkVarKey uid1 d1).1.name = nm := by
      rw [f1.1, resolvedName, hn1]
      simp [hnm]
    have hname2 : (mkVarKey uid2 d2).1.name = nm := by
      rw [f2.1, resolvedName, hn2]
      simp [hnm]
    rw [eqstr_decomp, eqstr_decomp, hname1, hname2,
      f1.2.1, f2.2.1, f1.2.2.1, f2.2.2.1, f1.2.2.2.2.1, f2.2.2.2.2.1,
      ← hidx] at heq
    obtain ⟨hlin, hur⟩ := eqstr_inj_core w1 w2 heq
    have hunits : (normUnits d1).1 = (normUnits d2).1 :=
      normUnits_units_of_unitrepr d1 d2 hur
    rcases hdisj with hd | hd
    · exact hd (by rw [f1.2.1, f2.2.1, hlin])
    · exact hd (by rw [f1.2.2.2.1, f2.2.2.2.1, hunits])

theorem claim_C3_witness :
    (vkBEq keyXA keyXA = true ↔ eqstr keyXA = eqstr keyXA)
    ∧ (eqstr keyXA = eqstr keyXB → vkHash keyXA = vkHash keyXB)
    ∧ vkBEq (mkVarKey 0 sampleXA).1 (mkVarKey 0 sampleXB).1 = false :=
  ⟨claim_C3.1 keyXA keyXA, claim_C3.2.1 keyXA keyXB,
    claim_C3.2.2 0 0 sampleXA sampleXB ['x']
      (by intro p hp; rw [List.mem_singleton] at hp; subst hp
          exact ⟨by decide, by decide⟩)
      (by intro p hp; rw [List.mem_singleton] at hp; subst hp
          exact ⟨by decide, by decide⟩)
      rfl rfl (by decide) rfl (Or.inl (by decide))⟩

end GPKit
